import Mathlib

/-!
Verification development for the graftM tree/placement algorithms.

The Python sources embedded here are:
  * src/graftm/classify.py    — taxonomy table loading and placement consolidation
  * src/graftm/jplace.py      — the jplace extended-newick tokenizer and parser
  * src/graftm/reannotator.py — tree rerooting against a reference root

Python floats are modelled as rationals, Python dicts as association lists in
insertion order, fallible code as Option/Except.  Error constructors mirror the
exception kinds the source raises.  String primitives are re-implemented over
`List Char` so that every definition evaluates by kernel reduction.
-/

deriving instance DecidableEq for Except

namespace GraftM

/-- Python `str.isspace` on one character (the whitespace set `str.rstrip`
strips by default). -/
def pyIsSpace (c : Char) : Bool :=
  c = ' ' ∨ c = '\t' ∨ c = '\n' ∨ c = '\r' ∨ c = '\x0b' ∨ c = '\x0c'

/-- Python `str.rstrip()`: drop trailing whitespace. -/
def pyRstrip (s : String) : String :=
  String.mk ((s.data.reverse.dropWhile pyIsSpace).reverse)

/-- Splitting a character list on a separator character, Python
`str.split(sep)`: splitting the empty string gives one empty field. -/
def splitChar (sep : Char) : List Char → List (List Char)
  | [] => [[]]
  | c :: t =>
    match splitChar sep t with
    | [] => [[]]
    | g :: gs => if c = sep then [] :: g :: gs else (c :: g) :: gs

/-- Python `s.split(',')` as a list of strings. -/
def splitCommas (s : String) : List String :=
  (splitChar ',' s.data).map String.mk

/-- Whether the first list is an initial segment of the second. -/
def listPre {α : Type} [DecidableEq α] : List α → List α → Bool
  | [], _ => true
  | _ :: _, [] => false
  | a :: as, b :: bs => a = b && listPre as bs

/-- Python `s.startswith(p)`. -/
def pyStartsWith (s p : String) : Bool :=
  listPre p.data s.data

/-- Exception kinds raised by classify.py: the two `Exception("Programming
Error...")` raises, `self.taxonomy[rank]` key lookups, and Python `max` over an
empty sequence (ValueError). -/
inductive CErr where
  | programmingError
  | keyError
  | valueError
  deriving Repr, DecidableEq

/-- Python dict lookup on an association list kept in insertion order. -/
def alookup {β : Type} : List (String × β) → String → Option β
  | [], _ => none
  | (k, v) :: t, key => if k = key then some v else alookup t key

/-- Python `d[k] = v`: replace in place when the key exists, append when it
does not (CPython keeps first-insertion order; classify.py only ever reads
its dicts in order-independent ways, so insertion order is a safe model). -/
def aset {β : Type} : List (String × β) → String → β → List (String × β)
  | [], key, v => [(key, v)]
  | (k, w) :: t, key, v => if k = key then (k, v) :: t else (k, w) :: aset t key v

/-- One line of the taxonomy CSV after Python's
`[y for y in x.rstrip().split(',') if y]`: right-strip, split on commas, and
drop the fields that are empty strings. -/
def taxFields (line : String) : List String :=
  (splitCommas (pyRstrip line)).filter (fun y => y ≠ "")

/-- One iteration of the `Classify.readRefpkgTax` loop (classify.py lines
10–11).  A line whose filtered field list is empty makes Python's `line[0]`
raise IndexError, modelled as `none`. -/
def taxStep (h : List (String × List String)) (line : String) :
    Option (List (String × List String)) :=
  if pyStartsWith line "tax_id" then some h
  else
    match taxFields line with
    | [] => none
    | f0 :: rest => some (aset h f0 ("Root" :: (f0 :: rest).drop 5))

/-- `Classify.readRefpkgTax` (classify.py lines 7–12) starting from a given
table, over the list of file lines. -/
def readRefpkgTaxFrom (h : List (String × List String)) :
    List String → Option (List (String × List String))
  | [] => some h
  | line :: rest =>
    match taxStep h line with
    | none => none
    | some h' => readRefpkgTaxFrom h' rest

/-- `Classify.readRefpkgTax` (classify.py lines 7–12). -/
def readRefpkgTax (lines : List String) : Option (List (String × List String)) :=
  readRefpkgTaxFrom [] lines

/-- One row of a placement group's `p` list, reduced to the two positions
classify.py reads from it: `placement[0]` (the taxonomy id, a string) and
`placement[lwr_idx]` (the like_weight_ratio, a float modelled as ℚ). -/
structure PRow where
  f0 : String
  lwr : ℚ
  deriving Repr, DecidableEq

/-- One value of the `seen` dict built by consolidatePlacements: the merged
confidence `c` and the taxonomy rank-label path `p`. -/
structure Hyp where
  c : ℚ
  p : List String
  deriving Repr, DecidableEq

/-- The in-place `seen[rank]['c'] += confidence` update (classify.py line 54). -/
def bumpC : List (String × Hyp) → String → ℚ → List (String × Hyp)
  | [], _, _ => []
  | (k, h) :: t, rank, conf =>
    if k = rank then (k, { h with c := h.c + conf }) :: t
    else (k, h) :: bumpC t rank conf

/-- The grouping loop of consolidatePlacements (classify.py lines 45–54) from
a given `seen` state: group rows by `placement[0]`, looking the taxonomy path
up on first sight (KeyError when the id is not in the table) and summing
confidences of repeats. -/
def groupFrom (tax : List (String × List String))
    (seen : List (String × Hyp)) : List PRow → Except CErr (List (String × Hyp))
  | [] => .ok seen
  | row :: rest =>
    match alookup seen row.f0 with
    | some _ => groupFrom tax (bumpC seen row.f0 row.lwr) rest
    | none =>
      match alookup tax row.f0 with
      | none => .error .keyError
      | some ts => groupFrom tax (seen ++ [(row.f0, ⟨row.lwr, ts⟩)]) rest

/-- The grouping loop of consolidatePlacements (classify.py lines 45–54). -/
def groupPlacements (tax : List (String × List String)) (rows : List PRow) :
    Except CErr (List (String × Hyp)) :=
  groupFrom tax [] rows

/-- Result shape of reduceTaxString / consolidatePlacements: the dict
`{'placement': [...], 'confidence': [...]}`. -/
structure TaxRes where
  placement : List String
  confidence : List ℚ
  deriving Repr, DecidableEq

/-- CPython `max` over a nonempty list under the strict order `lt`: the
running maximum is replaced only by a strictly greater element, so the first
of several equal maxima wins.  `none` on an empty list (Python ValueError). -/
def pyMax {α : Type} (lt : α → α → Bool) : List α → Option α
  | [] => none
  | x :: t => some (t.foldl (fun cur y => if lt cur y then y else cur) x)

/-- Python `<` on lists of strings: lexicographic, element by element, a
proper initial segment counting as smaller. -/
def strListLt : List String → List String → Bool
  | [], [] => false
  | [], _ :: _ => true
  | _ :: _, [] => false
  | a :: as, b :: bs => if a < b then true else if b < a then false else strListLt as bs

/-- Python `<` on (confidence, label) pairs: by confidence, ties by label. -/
def pairLt (x y : ℚ × String) : Bool :=
  if x.1 < y.1 then true else if y.1 < x.1 then false else decide (x.2 < y.2)

/-- One vote added into the per-depth `cumil_confidence` dict
(classify.py lines 26–30), keys in first-seen order. -/
def addVote : List (String × ℚ) → String → ℚ → List (String × ℚ)
  | [], k, c => [(k, c)]
  | (k', v) :: t, k, c => if k' = k then (k', v + c) :: t else (k', v) :: addVote t k c

/-- The depth-`i` vote table built from `[x['p'][i] for x in placement_hashes]`
(classify.py lines 24–30).  Python builds that list eagerly, so one hypothesis
whose path has length ≤ i raises IndexError before anything is summed; the
`except IndexError` makes the whole depth yield nothing, modelled as `none`. -/
def cumilAt (hyps : List Hyp) (i : Nat) : Option (List (String × ℚ)) :=
  if hyps.all (fun h => i < h.p.length) then
    some (hyps.foldl (fun m h => addVote m (h.p.getD i "") h.c) [])
  else none

/-- The `best_place` selection (classify.py line 31): Python `max` over the
`(value, key)` pairs of the vote table. -/
def bestPlace (cm : List (String × ℚ)) : Option (ℚ × String) :=
  pyMax pairLt (cm.map (fun kv => (kv.2, kv.1)))

/-- The depth loop of reduceTaxString (classify.py lines 23–42): `i` is the
current depth, `n` the number of depths left before the `range` bound.  An
IndexError depth is skipped entirely (`continue`); a best vote strictly above
the threshold is appended and the loop continues; otherwise the accumulated
result is returned at once.  After the loop an empty accumulated placement is
the `raise Exception("Programming error.")` at line 42. -/
def reduceGo (hyps : List Hyp) (threshold : ℚ) :
    TaxRes → Nat → Nat → Except CErr TaxRes
  | acc, _, 0 => if acc.placement.isEmpty then .error .programmingError else .ok acc
  | acc, i, n + 1 =>
    match cumilAt hyps i with
    | none => reduceGo hyps threshold acc (i + 1) n
    | some cm =>
      match bestPlace cm with
      | none => .error .valueError
      | some (v, k) =>
        if threshold < v then
          reduceGo hyps threshold
            ⟨acc.placement ++ [k], acc.confidence ++ [v]⟩ (i + 1) n
        else .ok acc

/-- reduceTaxString (classify.py lines 19–42).  The `range` bound is
`len(max([x['p'] for x in placement_hashes]))`: the length of the
lexicographically greatest path, not of the longest one. -/
def reduceTaxString (hyps : List Hyp) (threshold : ℚ) : Except CErr TaxRes :=
  match pyMax strListLt (hyps.map (fun h => h.p)) with
  | none => .error .valueError
  | some mp => reduceGo hyps threshold ⟨[], []⟩ 0 mp.length

/-- consolidatePlacements (classify.py lines 44–60).  `c_idx` is passed by the
source but never read inside the function, so it is omitted here.  With one
grouped id at merged confidence ≥ 0.98 the whole path is returned with that
confidence repeated; with more than one grouped id the rank vote runs; the
remaining cases (no id, or one id below 0.98) raise the programming error. -/
def consolidatePlacements (tax : List (String × List String)) (rows : List PRow)
    (cutoff : ℚ) : Except CErr TaxRes :=
  match groupPlacements tax rows with
  | .error e => .error e
  | .ok seen =>
    match seen with
    | [(_, h)] =>
      if h.c ≥ 98 / 100 then .ok ⟨h.p, List.replicate h.p.length h.c⟩
      else .error .programmingError
    | _ :: _ :: _ => reduceTaxString (seen.map (fun kv => kv.2)) cutoff
    | [] => .error .programmingError

/-- Python `read[-1]` as a one-character string (classify.py lines 74–77); the
source would raise IndexError on an empty read name, which never occurs. -/
def fileKeyOf (read : String) : String :=
  String.mk (match read.data.reverse with | [] => [] | c :: _ => [c])

/-- Python `read[:-2]` (classify.py lines 75–77). -/
def readKeyOf (read : String) : String :=
  String.mk ((read.data.reverse.drop 2).reverse)

/-- The nested output dict of assignPlacement: file-origin key → read key →
consolidated classification. -/
abbrev OutMap := List (String × List (String × TaxRes))

/-- Storing one read of a group (classify.py lines 74–77): outer key is the
read's final character, inner key the read with its last two characters
stripped; an existing inner dict is updated in place. -/
def storeRead (m : OutMap) (read : String) (bp : TaxRes) : OutMap :=
  match alookup m (fileKeyOf read) with
  | some inner => aset m (fileKeyOf read) (aset inner (readKeyOf read) bp)
  | none => aset m (fileKeyOf read) [(readKeyOf read, bp)]

/-- One placement group of the jplace file: its `p` rows and its `nm` list of
(read name, count) pairs. -/
structure PGroup where
  p : List PRow
  nm : List (String × Nat)
  deriving Repr, DecidableEq

/-- Storing every read of one group (classify.py lines 72–77); all reads of a
group receive the same best placement. -/
def storeGroup (m : OutMap) (g : PGroup) (bp : TaxRes) : OutMap :=
  (g.nm.map (fun x => x.1)).foldl (fun m r => storeRead m r bp) m

/-- The assignPlacement group loop (classify.py lines 69–79) from a given map.
The source's `if best_place:` tests the truthiness of a two-key dict, which is
always true, so every successfully consolidated group is stored. -/
def assignFrom (tax : List (String × List String)) (cutoff : ℚ) (m : OutMap) :
    List PGroup → Except CErr OutMap
  | [] => .ok m
  | g :: gs =>
    match consolidatePlacements tax g.p cutoff with
    | .error e => .error e
    | .ok bp => assignFrom tax cutoff (storeGroup m g bp) gs

/-- The assignPlacement group loop (classify.py lines 69–79). -/
def assignPlacement (tax : List (String × List String)) (cutoff : ℚ)
    (groups : List PGroup) : Except CErr OutMap :=
  assignFrom tax cutoff [] groups

/-- Lookup through both levels of the output map. -/
def alookup2 (m : OutMap) (k1 k2 : String) : Option TaxRes :=
  match alookup m k1 with
  | none => none
  | some inner => alookup inner k2

/-! ## jplace.py: the extended-newick tokenizer and parser -/

/-- The single-quote character, newick's escape toggle. -/
def squote : Char := Char.ofNat 39

/-- The opening brace of an edge-id suffix such as `0.12{3}`. -/
def obrace : Char := Char.ofNat 123

/-- The closing brace of an edge-id suffix. -/
def cbrace : Char := Char.ofNat 125

/-- Membership in the tokenizer's `structure_tokens = set('(),;:')`. -/
def isStructureTok (c : Char) : Bool :=
  c = '(' ∨ c = ')' ∨ c = ',' ∨ c = ';' ∨ c = ':'

/-- Python `metadata.replace('_', ' ')`. -/
def underscoreToSpace (cs : List Char) : List Char :=
  cs.map (fun c => if c = '_' then ' ' else c)

/-- Whether `n` occurs as a contiguous run inside `h`: Python's substring
test `in`, under which the empty string is in everything.  The parser's
`last_token not in '(,):'` uses exactly this, so the initial empty
`last_token` counts as a member. -/
def listSub {α : Type} [DecidableEq α] (n : List α) : List α → Bool
  | [] => listPre n []
  | c :: t => listPre n (c :: t) || listSub n t

/-- Python `needle in hay` on strings. -/
def pyInStr (needle hay : String) : Bool :=
  listSub needle.data hay.data

/-- Exception kinds of jplace.py's parse: the NewickFormatError raises of
`_jplace_tree_to_tree_node` / `_tokenize_newick`, plus the IndexError a plain
out-of-range Python list subscript raises (which is not a NewickFormatError). -/
inductive PErr where
  | formatMissingEdge
  | formatBadLength
  | formatDuplicateEdge
  | formatUnbalanced
  | formatUnnested
  | formatWhitespace
  | indexError
  deriving Repr, DecidableEq

/-- Which parse errors are NewickFormatError (the parser's typed format
exception); IndexError is not. -/
def PErr.isFormatError : PErr → Bool
  | .indexError => false
  | _ => true

/-- State of `_tokenize_newick`'s character loop (jplace.py lines 96–211).
Python's `last_non_ws_char` / `last_char` start as the empty string and are
reset to it, modelled as `none`. -/
structure TokState where
  notEscaped : Bool := true
  labelStart : Bool := false
  lastNonWs : Option Char := none
  lastChar : Option Char := none
  commentDepth : Nat := 0
  buf : List Char := []
  deriving Repr, DecidableEq

/-- One character of `_tokenize_newick` (jplace.py lines 121–211): the yielded
tokens (possibly a metadata token and a structure token) and the next state,
or the NewickFormatError raised on unescaped whitespace inside a label. -/
def tokStep (convertUnderscores : Bool) (st : TokState) (c : Char) :
    Except PErr (List String × TokState) :=
  let st :=
    if c = '[' ∧ st.notEscaped ∧ (st.lastNonWs ≠ some squote ∨ st.commentDepth = 0) then
      { st with commentDepth := st.commentDepth + 1 }
    else st
  if 0 < st.commentDepth then
    let st :=
      if c = ']' ∧ st.lastNonWs ≠ some squote then
        { st with commentDepth := st.commentDepth - 1 }
      else st
    .ok ([], { st with lastNonWs := some c })
  else if st.notEscaped ∧ isStructureTok c then
    let metadata := st.buf
    let toks :=
      (if st.lastNonWs = some squote ∨ ¬ convertUnderscores then [String.mk metadata]
       else if metadata ≠ [] then [String.mk (underscoreToSpace metadata)]
       else []) ++ [String.mk [c]]
    .ok (toks, { st with
                  labelStart := false,
                  buf := [],
                  lastChar := some c,
                  lastNonWs := some c })
  else if c = squote then
    let st := { st with notEscaped := ¬ st.notEscaped, labelStart := true }
    if st.lastNonWs = some squote then
      .ok ([], { st with
                  buf := st.buf ++ [c],
                  lastNonWs := none,
                  lastChar := none })
    else
      .ok ([], { st with lastChar := some c, lastNonWs := some c })
  else if ¬ pyIsSpace c ∨ ¬ st.notEscaped then
    if st.labelStart ∧ (st.lastChar.elim false pyIsSpace) ∧ st.notEscaped then
      .error .formatWhitespace
    else
      .ok ([], { st with
                  buf := st.buf ++ [c],
                  labelStart := true,
                  lastChar := some c,
                  lastNonWs := some c })
  else
    .ok ([], { st with lastChar := some c })

/-- The tokenizer run over a character list: the tokens yielded before the
stream ends or an error is raised, with the error (if any) kept separately,
because the parser consumes the generator lazily and may return or raise
before pulling the failing character. -/
def tokenizeGo (convertUnderscores : Bool) (st : TokState) :
    List Char → List String × Option PErr
  | [] => ([], none)
  | c :: rest =>
    match tokStep convertUnderscores st c with
    | .error e => ([], some e)
    | .ok (toks, st') =>
      match tokenizeGo convertUnderscores st' rest with
      | (more, err) => (toks ++ more, err)

/-- `_tokenize_newick` (jplace.py lines 96–211) over a whole input string. -/
def tokenizeNewick (convertUnderscores : Bool) (s : String) :
    List String × Option PErr :=
  tokenizeGo convertUnderscores {} s.data

/-- One node of the parsed tree, held in an arena: the parser's TreeNode with
`name`, `length` and the (arena-index) child list; parent back-references are
implied by the child lists. -/
structure PNode where
  name : Option String := none
  length : Option ℚ := none
  children : List Nat := []
  deriving Repr, DecidableEq

/-- Replace the element at an index, leaving the list unchanged when out of
range. -/
def modifyAt {α : Type} : List α → Nat → (α → α) → List α
  | [], _, _ => []
  | x :: t, 0, f => f x :: t
  | x :: t, n + 1, f => x :: modifyAt t n f

/-- State of `_jplace_tree_to_tree_node`'s token loop (jplace.py lines 28–89):
the node arena (the root is index 0), the stack of (node, depth) pairs with
its top first, the current depth, the previous token, the pending-distance
flag, and `edge_indices` — which starts as the empty Python list and is never
extended by the source. -/
structure ParseState where
  arena : List PNode
  stack : List (Nat × Nat)
  depth : Nat
  lastTok : String
  nextIsDist : Bool
  edges : List (Option Nat)
  deriving Repr, DecidableEq

/-- The regex `^([\d\.]+)\{(\d+)\}$` of jplace.py line 35: on a match, the
numeric text and the edge-id digits. -/
def edgeRegexMatch (tok : String) : Option (String × String) :=
  let cs := tok.data
  let a := cs.takeWhile (fun c => c.isDigit ∨ c = '.')
  match cs.drop a.length with
  | [] => none
  | b :: rest2 =>
    if a = [] ∨ b ≠ obrace then none
    else
      let ds := rest2.takeWhile Char.isDigit
      if ds = [] then none
      else if rest2.drop ds.length = [cbrace] then some (String.mk a, String.mk ds)
      else none

/-- A run of decimal digits as a natural number. -/
def digitsToNat (s : String) : Nat :=
  s.data.foldl (fun n c => n * 10 + (c.toNat - 48)) 0

/-- Python `float` restricted to the digit-and-dot strings the edge regex can
produce: at most one dot and at least one digit, else ValueError (`none`). -/
def pyFloatDd (s : String) : Option ℚ :=
  match (splitChar '.' s.data).map String.mk with
  | [a] => if a = "" then none else some (digitsToNat a : ℚ)
  | [a, b] =>
    if a = "" ∧ b = "" then none
    else some ((digitsToNat a : ℚ) + (digitsToNat b : ℚ) / 10 ^ b.length)
  | _ => none

/-- The `while current_depth == tree_stack[-1][1]` pop of jplace.py lines
72–74; `children.insert(0, node)` makes the popped nodes come out in their
original push order.  Exhausting the stack inside the loop is the IndexError
Python's `tree_stack[-1]` would raise. -/
def popAtDepth (d : Nat) : List (Nat × Nat) → List Nat →
    Except PErr (List Nat × List (Nat × Nat))
  | [], _ => .error .indexError
  | (n, nd) :: rest, acc =>
    if nd = d then popAtDepth d rest (n :: acc)
    else .ok (acc, (n, nd) :: rest)

/-- Outcome of one parser token: continue with a new state, return the
finished (arena, edge table), or raise. -/
inductive POut where
  | cont (st : ParseState)
  | done (arena : List PNode) (edges : List (Option Nat))
  | fail (e : PErr)

/-- One token of `_jplace_tree_to_tree_node`'s loop (jplace.py lines 36–89).
The label bookkeeping happens first (lines 38–42, keyed on the *previous*
token, with Python's substring test `last_token not in '(,):'`), then the
token itself is dispatched.  Note the edge-table branch (lines 47–59):
`edge_indices` is never grown, so `edge_indices[edge_index]` raises IndexError
whenever the id is out of range — always, in the source as written. -/
def parStep (st : ParseState) (tok : String) : POut :=
  let named : Except PErr ParseState :=
    if ¬ pyInStr st.lastTok "(,):" then
      if ¬ st.nextIsDist then
        match st.stack with
        | [] => .error .indexError
        | (n, _) :: _ =>
          .ok { st with arena := modifyAt st.arena n (fun nd =>
                  { nd with name := if st.lastTok ≠ "" then some st.lastTok else none }) }
      else .ok { st with nextIsDist := false }
    else .ok st
  match named with
  | .error e => .fail e
  | .ok st =>
    if tok = ":" then .cont { st with nextIsDist := true, lastTok := tok }
    else if st.lastTok = ":" then
      match st.stack with
      | [] => .fail .indexError
      | (child, _) :: _ =>
        match edgeRegexMatch tok with
        | none => .fail .formatMissingEdge
        | some (numStr, idxStr) =>
          match pyFloatDd numStr with
          | none => .fail .formatBadLength
          | some len =>
            let st := { st with arena := modifyAt st.arena child (fun nd =>
                          { nd with length := some len }) }
            let ei := digitsToNat idxStr
            if ei < st.edges.length then
              if (st.edges.getD ei none).isSome then .fail .formatDuplicateEdge
              else .cont { st with edges := st.edges.set ei (some child), lastTok := tok }
            else .fail .indexError
    else if tok = "(" then
      .cont { st with
               depth := st.depth + 1,
               arena := st.arena ++ [{}],
               stack := (st.arena.length, st.depth + 1) :: st.stack,
               lastTok := tok }
    else if tok = "," then
      .cont { st with
               arena := st.arena ++ [{}],
               stack := (st.arena.length, st.depth) :: st.stack,
               lastTok := tok }
    else if tok = ")" then
      if st.stack.length < 2 then .fail .formatUnbalanced
      else
        match popAtDepth st.depth st.stack [] with
        | .error e => .fail e
        | .ok (children, stk) =>
          match stk with
          | [] => .fail .indexError
          | (parent, _) :: _ =>
            if ((st.arena.getD parent {}).children ≠ []) then .fail .formatUnnested
            else .cont { st with
                          arena := modifyAt st.arena parent
                            (fun nd => { nd with children := children }),
                          stack := stk,
                          depth := st.depth - 1,
                          lastTok := tok }
    else if tok = ";" then
      if st.stack.length = 1 then .done st.arena st.edges
      else .fail .formatUnbalanced
    else .cont { st with lastTok := tok }

/-- The parser loop over the token stream.  Falling off the end of the tokens
raises the tokenizer's own pending error when there is one (the generator
re-raises on the next pull), else the final "unbalanced or missing root"
NewickFormatError of jplace.py line 91; the `break` on a bad `;` reaches the
same raise. -/
def parseGo : ParseState → List String → Option PErr →
    Except PErr (List PNode × List (Option Nat))
  | _, [], some e => .error e
  | _, [], none => .error .formatUnbalanced
  | st, tok :: rest, terr =>
    match parStep st tok with
    | .fail e => .error e
    | .done a es => .ok (a, es)
    | .cont st' => parseGo st' rest terr

/-- `_jplace_tree_to_tree_node` (jplace.py lines 15–94) on a whole input
string: tokenize, then run the token loop from one root node at depth 0. -/
def jplaceParse (s : String) : Except PErr (List PNode × List (Option Nat)) :=
  match tokenizeNewick true s with
  | (toks, terr) => parseGo ⟨[{}], [(0, 0)], 0, "", false, []⟩ toks terr

/-! ## reannotator.py: rerooting a tree against a reference root

The trees here are skbio TreeNode instances.  They are modelled functionally:
a node carries an optional name, a branch length (a root's Python `None`
length is the rational 0 — no branch — and every reroot below creates roots
with explicit length 0.0), and its ordered children.  A node inside a tree is
addressed by its path of child indices from the root. -/

/-- One rooted tree node: name, branch length to the parent, children. -/
inductive RT where
  | mk (name : Option String) (len : ℚ) (children : List RT)
  deriving Repr

mutual

/-- Decidable equality of tree nodes. -/
def RT.deq : (a b : RT) → Decidable (a = b)
  | .mk n1 l1 c1, .mk n2 l2 c2 =>
    if h1 : n1 = n2 then
      if h2 : l1 = l2 then
        match RT.deqL c1 c2 with
        | isTrue h3 => isTrue (by rw [h1, h2, h3])
        | isFalse h3 => isFalse (fun h => by injection h with a b c; exact h3 c)
      else isFalse (fun h => by injection h with a b c; exact h2 b)
    else isFalse (fun h => by injection h with a b c; exact h1 a)

/-- Decidable equality of tree-node lists. -/
def RT.deqL : (a b : List RT) → Decidable (a = b)
  | [], [] => isTrue rfl
  | [], _ :: _ => isFalse (by simp)
  | _ :: _, [] => isFalse (by simp)
  | a :: as, b :: bs =>
    match RT.deq a b, RT.deqL as bs with
    | isTrue h1, isTrue h2 => isTrue (by rw [h1, h2])
    | isFalse h1, _ => isFalse (fun h => by injection h with x y; exact h1 x)
    | _, isFalse h2 => isFalse (fun h => by injection h with x y; exact h2 y)

end

instance : DecidableEq RT := RT.deq

/-- Name of a tree node. -/
def RT.name : RT → Option String
  | .mk n _ _ => n

/-- Branch length of a tree node. -/
def RT.len : RT → ℚ
  | .mk _ l _ => l

/-- Children of a tree node. -/
def RT.children : RT → List RT
  | .mk _ _ cs => cs

/-- Exception kinds of reannotator.py: the TreeParaphyleticException raises,
the plain `Exception` raises, and the crashes its skbio calls can produce. -/
inductive TErr where
  | expectedBinary
  | rerootAtRoot
  | numSisters
  | numOneChild
  | numGrandchildren
  | paraCase1
  | paraCase2
  | missingNode
  | attributeError
  | indexError
  | badPath
  deriving Repr, DecidableEq

mutual

/-- Total branch length of a subtree, the node's own length included. -/
def sumLen : RT → ℚ
  | .mk _ l cs => l + sumLenL cs

/-- Total branch length of a list of subtrees. -/
def sumLenL : List RT → ℚ
  | [] => 0
  | t :: ts => sumLen t + sumLenL ts

end

/-- Sum of all branch lengths of a tree: every node's length except the
root's (the root has no branch). -/
def branchSum (t : RT) : ℚ :=
  sumLen t - t.len

mutual

/-- Names of the tips descended from a node, the node itself included when it
is a leaf (preorder). -/
def tipNames : RT → List (Option String)
  | .mk n _ [] => [n]
  | .mk _ _ (c :: cs) => tipNamesL (c :: cs)

/-- Names of the tips descended from any node of a list. -/
def tipNamesL : List RT → List (Option String)
  | [] => []
  | t :: ts => tipNames t ++ tipNamesL ts

end

/-- skbio `node.tips(include_self=False)` names: the descendant leaves, which
for a leaf node itself is the empty list. -/
def tipNamesNoSelf (t : RT) : List (Option String) :=
  tipNamesL t.children

/-- Subtree at a path of child indices. -/
def subAt : RT → List Nat → Option RT
  | t, [] => some t
  | .mk _ _ cs, i :: p =>
    match cs.get? i with
    | none => none
    | some c => subAt c p

/-- Replace the subtree at a path by a function of it. -/
def updAt : RT → List Nat → (RT → RT) → Option RT
  | t, [], f => some (f t)
  | .mk n l cs, i :: p, f =>
    match cs.get? i with
    | none => none
    | some c =>
      match updAt c p f with
      | none => none
      | some c' => some (.mk n l (cs.set i c'))

mutual

/-- Modelled from the spec: skbio `TreeNode.find` — the first node, in
preorder, carrying the given name (reannotator.py line 87 relies on it);
`none` is skbio's MissingNodeError. -/
def findPathT (nm : Option String) : RT → Option (List Nat)
  | .mk n _ cs => if n = nm then some [] else findPathL nm cs 0

/-- Preorder name search over a child list, `i` the index of its head. -/
def findPathL (nm : Option String) : List RT → Nat → Option (List Nat)
  | [], _ => none
  | t :: ts, i =>
    match findPathT nm t with
    | some p => some (i :: p)
    | none => findPathL nm ts (i + 1)

end

/-- Longest common path: the deepest common ancestor of two addressed nodes. -/
def commonPre : List Nat → List Nat → List Nat
  | a :: as, b :: bs => if a = b then a :: commonPre as bs else []
  | _, _ => []

/-- Modelled from the spec: skbio `TreeNode.lowest_common_ancestor` over a
list of names (reannotator.py lines 17–18, 30, 33) — each name is resolved by
`find` (MissingNodeError when absent), and the LCA of the found nodes is the
longest common prefix of their paths.  skbio returns the Python value `None`
for an empty name list, modelled as `.ok none`. -/
def lcaResult (t : RT) (names : List (Option String)) :
    Except TErr (Option (List Nat)) :=
  match names.mapM (fun n => findPathT n t) with
  | none => .error .missingNode
  | some [] => .ok none
  | some (p :: ps) => .ok (some (ps.foldl commonPre p))

/-- Modelled from the spec: skbio `TreeNode.root_at` via `unrooted_copy` —
reorient the tree at the node addressed by the path.  Each edge on the
root-to-node path flips: the former parent becomes a child of its former
child and the flipped copy carries the name and length that labelled the edge
(the former child's); off-path subtrees are untouched; the new root's name
and length are cleared.  `above` accumulates the already-flipped part. -/
def rootAtGo : RT → List Nat → List RT → Option RT
  | .mk _ _ cs, [], above => some (.mk none 0 (cs ++ above))
  | .mk _ _ cs, i :: p, above =>
    match cs.get? i with
    | none => none
    | some c => rootAtGo c p [.mk c.name c.len (cs.eraseIdx i ++ above)]

/-- Rename the root's first child to the dummy marker
(`an_old_child.name = OLD_CHILD_NAME`, reannotator.py lines 76–78); a
childless root is Python's IndexError on `tree.children[0]`. -/
def renameFirstChild (t : RT) : Except TErr RT :=
  match t with
  | .mk _ _ [] => .error .indexError
  | .mk n l (.mk _ cl ccs :: cs) => .ok (.mk n l (.mk (some "ochild") cl ccs :: cs))

/-- Insert the zero-length new root directly above the node addressed by the
path (reannotator.py lines 82–83): the node is removed from its parent's
child list and the new root appended at its end, holding the node as its only
child.  Returns the rewritten tree and the new root's index among its
parent's children. -/
def insertNewRoot : RT → List Nat → Option (RT × Nat)
  | .mk n l cs, [j] =>
    match cs.get? j with
    | none => none
    | some c => some (.mk n l (cs.eraseIdx j ++ [.mk none 0 [c]]), cs.length - 1)
  | .mk n l cs, i :: j :: p =>
    match cs.get? i with
    | none => none
    | some c =>
      match insertNewRoot c (j :: p) with
      | none => none
      | some (c', idx) => some (.mk n l (cs.set i c'), idx)
  | _, [] => none

/-- The length-absorbing removal itself (reannotator.py lines 90–99): the
node at `pn` must have exactly one child, whose children (which must number
two) it adopts while absorbing the child's length and clearing its name. -/
def collapseAt (r : RT) (pn : List Nat) : Except TErr RT :=
  match subAt r pn with
  | some (.mk _ nl [.mk _ cl gcs]) =>
    if gcs.length = 2 then
      match updAt r pn (fun _ => .mk none (nl + cl) gcs) with
      | none => .error .badPath
      | some r2 => .ok r2
    else .error .numGrandchildren
  | _ => .error .badPath

/-- Removing the leftover dummy (reannotator.py lines 87–99): of the found
`ochild` node and its parent, exactly one must have a single child; that one
is collapsed by `collapseAt`.  A root-level `ochild` is Python's
`None.children` AttributeError. -/
def collapseDummy (r : RT) (q : List Nat) : Except TErr RT :=
  match subAt r q, q with
  | none, _ => .error .badPath
  | some _, [] => .error .attributeError
  | some oc, _ :: _ =>
    match subAt r q.dropLast with
    | none => .error .badPath
    | some par =>
      match (if oc.children.length = 1 then [q] else [])
          ++ (if par.children.length = 1 then [q.dropLast] else []) with
      | [pn] => collapseAt r pn
      | _ => .error .numOneChild

/-- `Reannotator._reroot_workaround` (reannotator.py lines 57–102) with the
target node given by its path.  The empty path is the "cannot reroot by
current root" raise; a length-one path is the trivial case (the node moves
across the root, its single sister absorbing its branch length); a longer
path is the general case: mark the root's first child, insert the zero-length
new root above the node, reorient there, and collapse the leftover dummy. -/
def rerootWorkaround (t : RT) (path : List Nat) : Except TErr RT :=
  match path with
  | [] => .error .rerootAtRoot
  | [i] =>
    match t with
    | .mk _ _ cs =>
      match cs.get? i with
      | none => .error .badPath
      | some node =>
        match cs.eraseIdx i with
        | [s] =>
          .ok (.mk none 0
            [.mk node.name 0 node.children, .mk s.name (s.len + node.len) s.children])
        | _ => .error .numSisters
  | i :: j :: p =>
    match renameFirstChild t with
    | .error e => .error e
    | .ok t1 =>
      match insertNewRoot t1 (i :: j :: p) with
      | none => .error .badPath
      | some (t2, idx) =>
        match rootAtGo t2 ((i :: j :: p).dropLast ++ [idx]) [] with
        | none => .error .badPath
        | some r =>
          match findPathT (some "ochild") r with
          | none => .error .missingNode
          | some q => collapseDummy r q

/-- `Reannotator._find_longest_internal_branch_node` (reannotator.py lines
44–55): walk from the addressed node towards the root (root excluded),
keeping the deepest node whose length strictly exceeds every length seen so
far, starting from -1.  `none` stands both for the Python `None` result of an
empty walk and for an invalid path, neither of which the source's call sites
can produce. -/
def farGo (t : RT) : List Nat → Option (List Nat) → ℚ → Option (List Nat)
  | [], best, _ => best
  | i :: q, best, maxLen =>
    match subAt t (i :: q) with
    | none => none
    | some nd =>
      if maxLen < nd.len then farGo t (i :: q).dropLast (some (i :: q)) nd.len
      else farGo t (i :: q).dropLast best maxLen
termination_by p _ _ => p.length
decreasing_by all_goals simp [List.length_dropLast]

/-- Tip names of the reference root's first child that also occur in the
target tree (reannotator.py lines 12–13). -/
def leftSharedNames (old new : RT) : List (Option String) :=
  (tipNamesNoSelf (old.children.getD 0 (.mk none 0 []))).filter
    (fun n => (tipNamesNoSelf new).contains n)

/-- Tip names of the reference root's second child that also occur in the
target tree (reannotator.py lines 12, 14). -/
def rightSharedNames (old new : RT) : List (Option String) :=
  (tipNamesNoSelf (old.children.getD 1 (.mk none 0 []))).filter
    (fun n => (tipNamesNoSelf new).contains n)

/-- The tail of `_reroot_tree_by_old_root` after the provisional reroot
(reannotator.py lines 30–42): recompute the other side's LCA on the rerooted
tree; an LCA with no parent (the root) is paraphyletic case #2; else reroot
at the longest-branch ancestor of that LCA.  An empty other-side name list
makes the source dereference `None` (AttributeError). -/
def afterFirstReroot (t2 : RT) (otherNames : List (Option String)) :
    Except TErr RT :=
  match lcaResult t2 otherNames with
  | .error e => .error e
  | .ok none => .error .attributeError
  | .ok (some q) =>
    if q = [] then .error .paraCase2
    else
      match farGo t2 q none (-1) with
      | none => .error .attributeError
      | some fp => rerootWorkaround t2 fp

/-- One side of the dispatch (reannotator.py lines 28–33): reroot the target
provisionally at the chosen LCA (Python `None` crashing with AttributeError)
and continue with `afterFirstReroot` on the other side's names. -/
def dispatchSide (new : RT) (anchor : Option (List Nat))
    (others : List (Option String)) : Except TErr RT :=
  match anchor with
  | none => .error .attributeError
  | some rp =>
    match rerootWorkaround new rp with
    | .error e => .error e
    | .ok t2 => afterFirstReroot t2 others

/-- `Reannotator._reroot_tree_by_old_root` (reannotator.py lines 6–42): check
the reference root is binary, compute the two shared tip-name lists and their
LCAs on the target; both LCAs at the target root is paraphyletic case #1;
otherwise reroot provisionally at whichever LCA is not the root and finish on
the other side's names. -/
def rerootTreeByOldRoot (old new : RT) : Except TErr RT :=
  if old.children.length ≠ 2 then .error .expectedBinary
  else
    match lcaResult new (leftSharedNames old new) with
    | .error e => .error e
    | .ok lOpt =>
      match lcaResult new (rightSharedNames old new) with
      | .error e => .error e
      | .ok rOpt =>
        if lOpt = some [] then
          if rOpt = some [] then .error .paraCase1
          else dispatchSide new rOpt (leftSharedNames old new)
        else dispatchSide new lOpt (rightSharedNames old new)

/-! ## Theorems -/

/-- Setting a key makes it look up to the new value. -/
theorem alookup_aset_self {β : Type} (m : List (String × β)) (k : String) (v : β) :
    alookup (aset m k v) k = some v := by
  induction m with
  | nil => simp [aset, alookup]
  | cons kv t ih =>
    by_cases h : kv.1 = k <;> simp [aset, alookup, h, ih]

/-- Setting one key leaves lookups of other keys unchanged. -/
theorem alookup_aset_ne {β : Type} (m : List (String × β)) (k k' : String) (v : β)
    (h : k' ≠ k) : alookup (aset m k' v) k = alookup m k := by
  induction m with
  | nil => simp [aset, alookup, h]
  | cons kv t ih =>
    by_cases h1 : kv.1 = k' <;> by_cases h2 : kv.1 = k <;>
      simp_all [aset, alookup]

/-- The taxonomy-line loop splits over list append. -/
theorem readFrom_append (xs ys : List String) (h : List (String × List String)) :
    readRefpkgTaxFrom h (xs ++ ys) =
      (readRefpkgTaxFrom h xs).bind (fun h2 => readRefpkgTaxFrom h2 ys) := by
  induction xs generalizing h with
  | nil => simp [readRefpkgTaxFrom]
  | cons l t ih =>
    simp only [List.cons_append, readRefpkgTaxFrom]
    cases taxStep h l with
    | none => rfl
    | some h1 => exact ih h1

/-- Lines that never write a key leave its lookup unchanged. -/
theorem readFrom_untouched (k : String) (post : List String) :
    ∀ (h h' : List (String × List String)),
      readRefpkgTaxFrom h post = some h' →
      (∀ l ∈ post, pyStartsWith l "tax_id" = false →
        ∀ g0 grest, taxFields l = g0 :: grest → g0 ≠ k) →
      alookup h' k = alookup h k := by
  induction post with
  | nil =>
    intro h h' hrun _
    simp only [readRefpkgTaxFrom, Option.some.injEq] at hrun
    rw [hrun]
  | cons l t ih =>
    intro h h' hrun hcond
    simp only [readRefpkgTaxFrom] at hrun
    cases hstep : taxStep h l with
    | none => rw [hstep] at hrun; exact absurd hrun (by simp)
    | some h1 =>
      rw [hstep] at hrun
      have htail := ih h1 h' hrun (fun l hl => hcond l (List.mem_cons_of_mem _ hl))
      rw [htail]
      unfold taxStep at hstep
      by_cases hsw : pyStartsWith l "tax_id"
      · simp only [hsw, if_true, Option.some.injEq] at hstep
        rw [hstep]
      · rw [if_neg (by simp [hsw])] at hstep
        cases hf : taxFields l with
        | nil => rw [hf] at hstep; exact absurd hstep (by simp)
        | cons g0 grest =>
          rw [hf] at hstep
          simp only [Option.some.injEq] at hstep
          rw [← hstep]
          exact alookup_aset_ne _ _ _ _
            (hcond l (List.mem_cons_self _ _) (by simp [hsw]) g0 grest hf)

/-- Witnesses the failure of the raw-field reading of the taxonomy CSV: for
the line `"7,,a,b,c,d,e"`, whose raw comma fields from position 5 onward are
`["d","e"]`, the loaded table maps `"7"` to `["Root","e"]` — the empty field
was discarded before slicing, so the table value is not "Root" followed by
the raw fields from position 5. -/
theorem readRefpkgTax_empty_field_discarded :
    readRefpkgTax ["7,,a,b,c,d,e"] = some [("7", ["Root", "e"])] ∧
    splitCommas "7,,a,b,c,d,e" = ["7", "", "a", "b", "c", "d", "e"] ∧
    ("Root" :: (splitCommas "7,,a,b,c,d,e").drop 5) = ["Root", "d", "e"] ∧
    ["Root", "e"] ≠ ["Root", "d", "e"] := by
  refine ⟨by decide, by decide, by decide, by decide⟩

/-- Amended taxonomy-loading claim: a non-header line is keyed by the first
field of its *empty-filtered* comma split, and maps to "Root" followed by the
filtered fields from position 5 onward — provided no later non-header line
writes the same key. -/
theorem readRefpkgTax_maps_filtered_fields
    (pre post : List String) (line f0 : String) (rest : List String)
    (tbl : List (String × List String))
    (hline : pyStartsWith line "tax_id" = false)
    (hf : taxFields line = f0 :: rest)
    (hrun : readRefpkgTax (pre ++ line :: post) = some tbl)
    (hpost : ∀ l ∈ post, pyStartsWith l "tax_id" = false →
      ∀ g0 grest, taxFields l = g0 :: grest → g0 ≠ f0) :
    alookup tbl f0 = some ("Root" :: (f0 :: rest).drop 5) := by
  unfold readRefpkgTax at hrun
  rw [readFrom_append] at hrun
  cases hpre : readRefpkgTaxFrom [] pre with
  | none => rw [hpre] at hrun; exact absurd hrun (by simp)
  | some h1 =>
    rw [hpre] at hrun
    simp only [Option.some_bind] at hrun
    simp only [readRefpkgTaxFrom] at hrun
    have hstep : taxStep h1 line = some (aset h1 f0 ("Root" :: (f0 :: rest).drop 5)) := by
      unfold taxStep
      rw [if_neg (by simp [hline]), hf]
    rw [hstep] at hrun
    rw [readFrom_untouched f0 post _ tbl hrun hpost]
    exact alookup_aset_self _ _ _

/-- Closed instance for the amended taxonomy-loading claim. -/
theorem readRefpkgTax_maps_filtered_fields_inst :
    alookup [("9", ["Root", "w"]), ("8", ["Root", "v"])] "9" = some ("Root" :: (["9", "p", "q", "r", "s", "w"].drop 5)) :=
  readRefpkgTax_maps_filtered_fields [] ["8,a,b,c,d,v"] "9,p,q,r,s,w" "9"
    ["p", "q", "r", "s", "w"] [("9", ["Root", "w"]), ("8", ["Root", "v"])]
    (by decide) (by decide) (by decide)
    (by
      intro l hl _ g0 grest hf
      simp only [List.mem_singleton] at hl
      subst hl
      have hfs : taxFields "8,a,b,c,d,v" = ["8", "a", "b", "c", "d", "v"] := by decide
      rw [hfs] at hf
      injection hf with h1 _
      subst h1
      decide)

/-- Witnesses the raise on a single grouped taxonomy id with merged
confidence below 0.98: grouping succeeds with one entry of confidence 1/2,
and consolidation returns the fatal programming error instead of a voting
result. -/
theorem consolidatePlacements_single_low_errors :
    groupPlacements [("5", ["Root", "X"])] [⟨"5", 1/2⟩] =
      .ok [("5", ⟨1/2, ["Root", "X"]⟩)] ∧
    consolidatePlacements [("5", ["Root", "X"])] [⟨"5", 1/2⟩] (4/5) =
      .error .programmingError := by
  constructor
  · norm_num [groupPlacements, groupFrom, alookup]
  · norm_num [consolidatePlacements, groupPlacements, groupFrom, alookup]

/-- Amended consolidation claim: with well-formed grouped data, rank-by-rank
voting runs exactly when more than one distinct taxonomy id survives
grouping; a single surviving id whose merged confidence is below 0.98 raises
the fatal programming error. -/
theorem consolidatePlacements_vote_condition
    (tax : List (String × List String)) (rows : List PRow) (cutoff : ℚ)
    (seen : List (String × Hyp))
    (hg : groupPlacements tax rows = .ok seen) :
    (∀ k h, seen = [(k, h)] → h.c < 98 / 100 →
      consolidatePlacements tax rows cutoff = .error .programmingError) ∧
    (2 ≤ seen.length →
      consolidatePlacements tax rows cutoff =
        reduceTaxString (seen.map (fun kv => kv.2)) cutoff) := by
  constructor
  · intro k h hs hc
    unfold consolidatePlacements
    rw [hg, hs]
    simp [not_le.mpr hc]
  · intro h2
    unfold consolidatePlacements
    rw [hg]
    match seen, h2 with
    | a :: b :: t, _ => rfl

/-- Closed instance for the amended consolidation claim: two grouped ids
route to the rank vote. -/
theorem consolidatePlacements_vote_condition_inst :
    consolidatePlacements [("1", ["Root", "P"]), ("2", ["Root", "Q"])]
        [⟨"1", 1/2⟩, ⟨"2", 1/4⟩] (1/3) =
      reduceTaxString [⟨1/2, ["Root", "P"]⟩, ⟨1/4, ["Root", "Q"]⟩] (1/3) :=
  (consolidatePlacements_vote_condition _ _ _
      [("1", ⟨1/2, ["Root", "P"]⟩), ("2", ⟨1/4, ["Root", "Q"]⟩)]
      (by norm_num +decide [groupPlacements, groupFrom, alookup, bumpC])).2 (by norm_num)

/-- Witnesses the strictness of the cutoff comparison: both hypotheses carry
the label "A", their cumulative confidence is exactly the cutoff 4/5, and the
vote returns the empty path — the label is rejected, not accepted. -/
theorem reduceTaxString_cutoff_equality_rejected :
    cumilAt [⟨1/2, ["A"]⟩, ⟨3/10, ["A"]⟩] 0 = some [("A", 4/5)] ∧
    reduceTaxString [⟨1/2, ["A"]⟩, ⟨3/10, ["A"]⟩] (4/5) = .ok ⟨[], []⟩ := by
  constructor
  · norm_num [cumilAt, addVote]
  · norm_num [reduceTaxString, reduceGo, cumilAt, addVote, bestPlace, pyMax,
      pairLt, strListLt]

/-- Unfolding one successor step of the depth loop. -/
theorem reduceGo_succ (hyps : List Hyp) (threshold : ℚ) (acc : TaxRes) (i n : Nat) :
    reduceGo hyps threshold acc i (n + 1) =
      match cumilAt hyps i with
      | none => reduceGo hyps threshold acc (i + 1) n
      | some cm =>
        match bestPlace cm with
        | none => .error .valueError
        | some (v, k) =>
          if threshold < v then
            reduceGo hyps threshold
              ⟨acc.placement ++ [k], acc.confidence ++ [v]⟩ (i + 1) n
          else .ok acc := rfl

/-- Amended cutoff claim, at one step of the depth loop: the best label is
appended and the descent continues exactly when its cumulative confidence is
strictly greater than the threshold; at or below the threshold the loop stops
at once and returns the path accumulated so far. -/
theorem reduceGo_strict_cutoff_step
    (hyps : List Hyp) (threshold : ℚ) (acc : TaxRes) (i n : Nat)
    (cm : List (String × ℚ)) (v : ℚ) (k : String)
    (hcm : cumilAt hyps i = some cm) (hbest : bestPlace cm = some (v, k)) :
    (threshold < v →
      reduceGo hyps threshold acc i (n + 1) =
        reduceGo hyps threshold ⟨acc.placement ++ [k], acc.confidence ++ [v]⟩ (i + 1) n) ∧
    (v ≤ threshold → reduceGo hyps threshold acc i (n + 1) = .ok acc) := by
  constructor
  · intro hlt
    rw [reduceGo_succ, hcm]
    simp [hbest, hlt]
  · intro hle
    rw [reduceGo_succ, hcm]
    simp [hbest, not_lt.mpr hle]

/-- Closed instance for the amended cutoff claim: exact equality stops the
loop with the accumulated (empty) path. -/
theorem reduceGo_strict_cutoff_step_inst :
    reduceGo [⟨1/2, ["A"]⟩, ⟨3/10, ["A"]⟩] (4/5) ⟨[], []⟩ 0 1 = .ok ⟨[], []⟩ :=
  (reduceGo_strict_cutoff_step _ _ _ _ _ [("A", 4/5)] (4/5) "A"
      (by norm_num [cumilAt, addVote])
      (by norm_num [bestPlace, pyMax, pairLt])).2 (by norm_num)

/-- Witnesses the all-or-nothing depth skip: with one two-rank and one
one-rank hypothesis, depth 1 raises IndexError for the whole depth (the
vote table is never built), so the surviving two-rank hypothesis does not
vote and the result stops at `["A"]`. -/
theorem reduceTaxString_short_path_skips_depth :
    reduceTaxString [⟨3/5, ["A", "B"]⟩, ⟨1/2, ["A"]⟩] (3/10) =
      .ok ⟨["A"], [11/10]⟩ ∧
    cumilAt [⟨3/5, ["A", "B"]⟩, ⟨1/2, ["A"]⟩] 1 = none := by
  constructor
  · norm_num [reduceTaxString, reduceGo, cumilAt, addVote, bestPlace, pyMax,
      pairLt, strListLt]
  · norm_num [cumilAt]

/-- Summing the vote-table values after one added vote. -/
theorem addVote_snd_sum (m : List (String × ℚ)) (k : String) (c : ℚ) :
    ((addVote m k c).map (fun kv => kv.2)).sum = (m.map (fun kv => kv.2)).sum + c := by
  induction m with
  | nil => simp [addVote]
  | cons kv t ih =>
    by_cases h : kv.1 = k <;> simp [addVote, h, ih] <;> ring

/-- Summing the vote-table values after all hypotheses have voted. -/
theorem voteFold_sum (i : Nat) (hyps : List Hyp) (m : List (String × ℚ)) :
    (((hyps.foldl (fun m h => addVote m (h.p.getD i "") h.c) m).map
        (fun kv => kv.2)).sum)
      = (m.map (fun kv => kv.2)).sum + (hyps.map (fun h => h.c)).sum := by
  induction hyps generalizing m with
  | nil => simp
  | cons h t ih =>
    simp only [List.foldl_cons, List.map_cons, List.sum_cons]
    rw [ih, addVote_snd_sum]
    ring

/-- Amended depth-participation claim: when some hypothesis's path is shorter
than `i+1` ranks, depth `i` builds no vote table at all and the loop moves
straight to depth `i+1`; when every path is long enough, the vote table
exists and its total mass is the sum of *all* hypotheses' confidences. -/
theorem cumilAt_depth_behavior (hyps : List Hyp) (i : Nat) :
    ((∃ h ∈ hyps, h.p.length ≤ i) →
      cumilAt hyps i = none ∧
      ∀ (threshold : ℚ) (acc : TaxRes) (n : Nat),
        reduceGo hyps threshold acc i (n + 1) = reduceGo hyps threshold acc (i + 1) n) ∧
    ((∀ h ∈ hyps, i < h.p.length) →
      ∃ cm, cumilAt hyps i = some cm ∧
        (cm.map (fun kv => kv.2)).sum = (hyps.map (fun h => h.c)).sum) := by
  constructor
  · intro hshort
    obtain ⟨h, hm, hle⟩ := hshort
    have hnone : cumilAt hyps i = none := by
      unfold cumilAt
      rw [if_neg]
      simp only [List.all_eq_true, decide_eq_true_eq]
      intro hall
      exact absurd (hall h hm) (not_lt.mpr hle)
    refine ⟨hnone, fun threshold acc n => ?_⟩
    rw [reduceGo_succ, hnone]
  · intro hall
    refine ⟨hyps.foldl (fun m h => addVote m (h.p.getD i "") h.c) [], ?_, ?_⟩
    · unfold cumilAt
      rw [if_pos]
      simp only [List.all_eq_true, decide_eq_true_eq]
      exact hall
    · rw [voteFold_sum]
      simp

/-- Storing a read makes its two-level key look up to the stored value. -/
theorem alookup2_storeRead_self (m : OutMap) (r : String) (bp : TaxRes) :
    alookup2 (storeRead m r bp) (fileKeyOf r) (readKeyOf r) = some bp := by
  unfold storeRead alookup2
  cases h : alookup m (fileKeyOf r) with
  | none => rw [alookup_aset_self]; simp [alookup]
  | some inner => simp [alookup_aset_self]

/-- Storing a read leaves every other two-level key unchanged. -/
theorem alookup2_storeRead_other (m : OutMap) (r : String) (bp : TaxRes)
    (k1 k2 : String) (h : ¬(fileKeyOf r = k1 ∧ readKeyOf r = k2)) :
    alookup2 (storeRead m r bp) k1 k2 = alookup2 m k1 k2 := by
  unfold storeRead alookup2
  by_cases hk1 : fileKeyOf r = k1
  · have hk2 : readKeyOf r ≠ k2 := fun hh => h ⟨hk1, hh⟩
    subst hk1
    cases hm : alookup m (fileKeyOf r) with
    | none => rw [alookup_aset_self]; simp [alookup, hk2]
    | some inner => rw [alookup_aset_self]; exact alookup_aset_ne _ _ _ _ hk2
  · cases hm : alookup m (fileKeyOf r) <;>
      rw [alookup_aset_ne _ _ _ _ hk1]

/-- Reads that never touch a two-level key leave its lookup unchanged. -/
theorem storeReads_untouched (bp : TaxRes) (k1 k2 : String) (rs : List String) :
    ∀ (m : OutMap),
      (∀ r ∈ rs, ¬(fileKeyOf r = k1 ∧ readKeyOf r = k2)) →
      alookup2 (rs.foldl (fun m r => storeRead m r bp) m) k1 k2 = alookup2 m k1 k2 := by
  induction rs with
  | nil => intro m _; rfl
  | cons x t ih =>
    intro m hc
    simp only [List.foldl_cons]
    rw [ih _ (fun r hr => hc r (List.mem_cons_of_mem _ hr)),
      alookup2_storeRead_other _ _ _ _ _ (hc x (List.mem_cons_self _ _))]

/-- After a fold of stores, a two-level key touched by some read holds the
stored value (every read of one group stores the same value). -/
theorem storeReads_mem (bp : TaxRes) (k1 k2 : String) (rs : List String) :
    ∀ (m : OutMap),
      (∃ r ∈ rs, fileKeyOf r = k1 ∧ readKeyOf r = k2) →
      alookup2 (rs.foldl (fun m r => storeRead m r bp) m) k1 k2 = some bp := by
  induction rs with
  | nil => intro m h; simp at h
  | cons x t ih =>
    intro m hex
    simp only [List.foldl_cons]
    by_cases ht : ∃ r ∈ t, fileKeyOf r = k1 ∧ readKeyOf r = k2
    · exact ih _ ht
    · obtain ⟨r, hr, hks⟩ := hex
      have hx : r = x := by
        rcases List.mem_cons.mp hr with h | h
        · exact h
        · exact absurd ⟨r, h, hks⟩ ht
      subst hx
      push_neg at ht
      rw [storeReads_untouched bp k1 k2 t _ (fun r hr => by
        intro hks2
        exact absurd hks2.2 (ht r hr hks2.1))]
      rw [← hks.1, ← hks.2]
      exact alookup2_storeRead_self _ _ _

/-- The group loop splits over list append. -/
theorem assignFrom_append (tax : List (String × List String)) (cutoff : ℚ)
    (xs ys : List PGroup) : ∀ (m : OutMap),
    assignFrom tax cutoff m (xs ++ ys) =
      match assignFrom tax cutoff m xs with
      | .error e => .error e
      | .ok m2 => assignFrom tax cutoff m2 ys := by
  induction xs with
  | nil => intro m; rfl
  | cons g t ih =>
    intro m
    simp only [List.cons_append, assignFrom]
    cases consolidatePlacements tax g.p cutoff with
    | error e => rfl
    | ok bp => exact ih _

/-- Later groups that never touch a two-level key leave its lookup
unchanged. -/
theorem assignFrom_untouched (tax : List (String × List String)) (cutoff : ℚ)
    (k1 k2 : String) (gs : List PGroup) :
    ∀ (m out : OutMap),
      assignFrom tax cutoff m gs = .ok out →
      (∀ g ∈ gs, ∀ r ∈ g.nm.map (fun x => x.1),
        ¬(fileKeyOf r = k1 ∧ readKeyOf r = k2)) →
      alookup2 out k1 k2 = alookup2 m k1 k2 := by
  induction gs with
  | nil =>
    intro m out hrun _
    simp only [assignFrom, Except.ok.injEq] at hrun
    rw [hrun]
  | cons g t ih =>
    intro m out hrun hc
    simp only [assignFrom] at hrun
    cases hcp : consolidatePlacements tax g.p cutoff with
    | error e => rw [hcp] at hrun; exact absurd hrun (by simp)
    | ok bp =>
      rw [hcp] at hrun
      rw [ih _ _ hrun (fun g' hg' => hc g' (List.mem_cons_of_mem _ hg'))]
      exact storeReads_untouched bp k1 k2 _ m (hc g (List.mem_cons_self _ _))

/-- Core lookup fact of the assignPlacement loop: when a group consolidates
to `bp`, every read of that group whose two-level key no later group touches
looks up to `bp` in the final map. -/
theorem assign_lookup_last_group (tax : List (String × List String))
    (cutoff : ℚ) (pre post : List PGroup) (g : PGroup) (out : OutMap)
    (bp : TaxRes) (r : String)
    (hrun : assignPlacement tax cutoff (pre ++ g :: post) = .ok out)
    (hc : consolidatePlacements tax g.p cutoff = .ok bp)
    (hr : r ∈ g.nm.map (fun x => x.1))
    (hpost : ∀ g' ∈ post, ∀ r' ∈ g'.nm.map (fun x => x.1),
      ¬(fileKeyOf r' = fileKeyOf r ∧ readKeyOf r' = readKeyOf r)) :
    alookup2 out (fileKeyOf r) (readKeyOf r) = some bp := by
  unfold assignPlacement at hrun
  rw [assignFrom_append] at hrun
  cases hpre : assignFrom tax cutoff [] pre with
  | error e => rw [hpre] at hrun; exact absurd hrun (by simp)
  | ok m1 =>
    rw [hpre] at hrun
    simp only [assignFrom] at hrun
    rw [hc] at hrun
    rw [assignFrom_untouched tax cutoff _ _ post _ out hrun hpost]
    exact storeReads_mem bp _ _ _ _ ⟨r, hr, rfl, rfl⟩

/-- Witnesses the single-character file key: for the read "r_1" the
classification is stored under outer key "1" (the final character), and there
is no entry under the two-character suffix "_1" the claim names. -/
theorem assignPlacement_one_char_file_key :
    assignPlacement [("1", ["Root", "B"])] (1/2) [⟨[⟨"1", 1⟩], [("r_1", 1)]⟩] =
      .ok [("1", [("r", ⟨["Root", "B"], [1, 1]⟩)])] ∧
    alookup2 [("1", [("r", ⟨["Root", "B"], [1, 1]⟩)])] "_1" "r" = none := by
  constructor
  · norm_num +decide [assignPlacement, assignFrom, consolidatePlacements,
      groupPlacements, groupFrom, alookup, storeGroup, storeRead, fileKeyOf,
      readKeyOf, aset]
  · norm_num +decide [alookup2, alookup]

/-- Amended read-keying claim: a consolidated classification is stored under
the outer key `fileKeyOf` (the read name's *final character*) and the inner
key `readKeyOf` (the read name with its trailing two characters stripped),
for any read of a group no later group overwrites. -/
theorem assignPlacement_key_scheme (tax : List (String × List String))
    (cutoff : ℚ) (pre post : List PGroup) (g : PGroup) (out : OutMap)
    (bp : TaxRes) (r : String)
    (hrun : assignPlacement tax cutoff (pre ++ g :: post) = .ok out)
    (hc : consolidatePlacements tax g.p cutoff = .ok bp)
    (hr : r ∈ g.nm.map (fun x => x.1))
    (hpost : ∀ g' ∈ post, ∀ r' ∈ g'.nm.map (fun x => x.1),
      ¬(fileKeyOf r' = fileKeyOf r ∧ readKeyOf r' = readKeyOf r)) :
    alookup2 out (fileKeyOf r) (readKeyOf r) = some bp :=
  assign_lookup_last_group tax cutoff pre post g out bp r hrun hc hr hpost

/-- Closed instance for the amended read-keying claim. -/
theorem assignPlacement_key_scheme_inst :
    alookup2 [("0", [("x", ⟨["Root", "B"], [1, 1]⟩)])]
      (fileKeyOf "x_0") (readKeyOf "x_0") = some ⟨["Root", "B"], [1, 1]⟩ :=
  assignPlacement_key_scheme [("1", ["Root", "B"])] (1/2) [] []
    ⟨[⟨"1", 1⟩], [("x_0", 1)]⟩ [("0", [("x", ⟨["Root", "B"], [1, 1]⟩)])]
    ⟨["Root", "B"], [1, 1]⟩ "x_0"
    (by norm_num +decide [assignPlacement, assignFrom, consolidatePlacements,
      groupPlacements, groupFrom, alookup, storeGroup, storeRead, fileKeyOf,
      readKeyOf, aset])
    (by norm_num +decide [consolidatePlacements, groupPlacements, groupFrom, alookup])
    (by decide)
    (by intro g' hg'; simp at hg')

/-- Same-key reads across groups: the consolidated classification of the
*last* group containing the key wins; any earlier group's assignment for the
same two-level key is overwritten. -/
theorem assignPlacement_last_group_wins (tax : List (String × List String))
    (cutoff : ℚ) (pre mid post : List PGroup) (g1 g2 : PGroup) (out : OutMap)
    (bp2 : TaxRes) (r1 r2 : String)
    (hrun : assignPlacement tax cutoff (pre ++ g1 :: mid ++ g2 :: post) = .ok out)
    (_hr1 : r1 ∈ g1.nm.map (fun x => x.1))
    (hr2 : r2 ∈ g2.nm.map (fun x => x.1))
    (_hk1 : fileKeyOf r1 = fileKeyOf r2) (_hk2 : readKeyOf r1 = readKeyOf r2)
    (hc2 : consolidatePlacements tax g2.p cutoff = .ok bp2)
    (hpost : ∀ g' ∈ post, ∀ r' ∈ g'.nm.map (fun x => x.1),
      ¬(fileKeyOf r' = fileKeyOf r2 ∧ readKeyOf r' = readKeyOf r2)) :
    alookup2 out (fileKeyOf r2) (readKeyOf r2) = some bp2 := by
  have hrw : pre ++ g1 :: mid ++ g2 :: post = (pre ++ g1 :: mid) ++ g2 :: post := by
    simp
  rw [hrw] at hrun
  exact assign_lookup_last_group tax cutoff (pre ++ g1 :: mid) post g2 out bp2 r2
    hrun hc2 hr2 hpost

/-- Closed instance for the last-group-wins claim: the read "y_0" appears in
two groups consolidating to different paths, and the final map holds the
second group's path. -/
theorem assignPlacement_last_group_wins_inst :
    alookup2 [("0", [("y", ⟨["Root", "C"], [1, 1]⟩)])]
      (fileKeyOf "y_0") (readKeyOf "y_0") = some ⟨["Root", "C"], [1, 1]⟩ :=
  assignPlacement_last_group_wins
    [("1", ["Root", "B"]), ("2", ["Root", "C"])] (1/2) [] [] []
    ⟨[⟨"1", 1⟩], [("y_0", 1)]⟩ ⟨[⟨"2", 1⟩], [("y_0", 1)]⟩
    [("0", [("y", ⟨["Root", "C"], [1, 1]⟩)])] ⟨["Root", "C"], [1, 1]⟩
    "y_0" "y_0"
    (by norm_num +decide [assignPlacement, assignFrom, consolidatePlacements,
      groupPlacements, groupFrom, alookup, storeGroup, storeRead, fileKeyOf,
      readKeyOf, aset])
    (by decide) (by decide) rfl rfl
    (by norm_num +decide [consolidatePlacements, groupPlacements, groupFrom, alookup])
    (by intro g' hg'; simp at hg')

/-- Evaluates the parser on a valid annotated tree text and on the same tree
without edge annotations: the annotated text crashes with IndexError at the
very first `:`-annotated edge — `edge_indices` starts empty and is never
extended, so no edge id can ever be stored — while the annotation-free text
parses to the expected tree with an empty edge table. -/
theorem jplaceParse_annotated_edge_index_crash :
    jplaceParse "(A:0.5\x7b0\x7d,B:0.25\x7b1\x7d);" = .error .indexError ∧
    PErr.isFormatError .indexError = false ∧
    jplaceParse "(A,B);" =
      .ok ([⟨none, none, [1, 2]⟩, ⟨some "A", none, []⟩, ⟨some "B", none, []⟩], []) := by
  refine ⟨by decide, by decide, by decide⟩

/-- Evaluates the parser on the three malformed inputs: the unbalanced
closing parenthesis and the non-numeric length `abc{3}` both raise
NewickFormatError kinds, but the duplicate edge id `7` raises IndexError —
not the typed format exception — because `edge_indices` is never extended and
the subscript fails already at the first occurrence of the id. -/
theorem jplaceParse_malformed_error_kinds :
    jplaceParse "(A,B));" = .error .formatUnbalanced ∧
    PErr.isFormatError .formatUnbalanced = true ∧
    jplaceParse "(A:abc\x7b3\x7d,B:0.5\x7b1\x7d);" = .error .formatMissingEdge ∧
    PErr.isFormatError .formatMissingEdge = true ∧
    jplaceParse "(A:1\x7b7\x7d,B:2\x7b7\x7d);" = .error .indexError ∧
    PErr.isFormatError .indexError = false := by
  refine ⟨by decide, by decide, by decide, by decide, by decide, by decide⟩

/-- Setting a list index that exists makes it read back the new value. -/
theorem getq_set_self {α : Type} : ∀ (l : List α) (i : Nat) (c c' : α),
    l.get? i = some c → (l.set i c').get? i = some c'
  | [], i, c, c', h => by simp at h
  | x :: t, 0, c, c', _ => rfl
  | x :: t, i + 1, c, c', h => getq_set_self t i c c' h

/-- Reading just past a list hits a single appended element. -/
theorem getq_append_single {α : Type} : ∀ (xs : List α) (y : α),
    (xs ++ [y]).get? xs.length = some y
  | [], y => rfl
  | x :: t, y => getq_append_single t y

/-- Erasing an existing index shortens the list by one. -/
theorem length_eraseIdx_get {α : Type} : ∀ (l : List α) (i : Nat) (c : α),
    l.get? i = some c → (l.eraseIdx i).length = l.length - 1
  | [], i, c, h => by simp at h
  | x :: t, 0, c, _ => by simp [List.eraseIdx]
  | x :: t, i + 1, c, h => by
    simp only [List.get?] at h
    have ht := length_eraseIdx_get t i c h
    have hlt : i < t.length := by
      by_contra hge
      rw [List.get?_eq_none.mpr (by omega)] at h
      exact absurd h (by simp)
    simp [List.eraseIdx, ht]
    omega

/-- Unfolding lemma: the sum over a node. -/
theorem sumLen_mk (n : Option String) (l : ℚ) (cs : List RT) :
    sumLen (.mk n l cs) = l + sumLenL cs := rfl

/-- Unfolding lemma: the sum over an empty list. -/
theorem sumLenL_nil : sumLenL [] = 0 := rfl

/-- Unfolding lemma: the sum over a cons. -/
theorem sumLenL_cons (t : RT) (ts : List RT) :
    sumLenL (t :: ts) = sumLen t + sumLenL ts := rfl

/-- Sum over a one-element list. -/
theorem sumLenL_single (t : RT) : sumLenL [t] = sumLen t := by
  rw [sumLenL_cons, sumLenL_nil]
  ring

/-- Branch-length sums add over list append. -/
theorem sumLenL_append : ∀ (xs ys : List RT),
    sumLenL (xs ++ ys) = sumLenL xs + sumLenL ys
  | [], ys => by
    show sumLenL ys = 0 + sumLenL ys
    ring
  | x :: t, ys => by
    show sumLen x + sumLenL (t ++ ys) = (sumLen x + sumLenL t) + sumLenL ys
    rw [sumLenL_append t ys]
    ring

/-- Splitting a list's branch-length sum at an existing index. -/
theorem sumLenL_get_eraseIdx : ∀ (l : List RT) (i : Nat) (c : RT),
    l.get? i = some c → sumLenL l = sumLen c + sumLenL (l.eraseIdx i)
  | [], i, c, h => by simp at h
  | x :: t, 0, c, h => by
    simp only [List.get?] at h
    injection h with h
    subst h
    rfl
  | x :: t, i + 1, c, h => by
    simp only [List.get?] at h
    have := sumLenL_get_eraseIdx t i c h
    show sumLen x + sumLenL t = sumLen c + (sumLen x + sumLenL (t.eraseIdx i))
    rw [this]
    ring

/-- Branch-length sum of a list after replacing an existing element. -/
theorem sumLenL_set : ∀ (l : List RT) (i : Nat) (c c' : RT),
    l.get? i = some c → sumLenL (l.set i c') = sumLenL l - sumLen c + sumLen c'
  | [], i, c, c', h => by simp at h
  | x :: t, 0, c, c', h => by
    simp only [List.get?] at h
    injection h with h
    rw [← h]
    show sumLen c' + sumLenL t = (sumLen x + sumLenL t) - sumLen x + sumLen c'
    ring
  | x :: t, i + 1, c, c', h => by
    simp only [List.get?] at h
    have := sumLenL_set t i c c' h
    show sumLen x + sumLenL (t.set i c') = (sumLen x + sumLenL t) - sumLen c + sumLen c'
    rw [this]
    ring

/-- Reorienting preserves the total length, except that the old root's own
length is dropped and the flipped part's total added. -/
theorem rootAtGo_sum : ∀ (p : List Nat) (t : RT) (above : List RT) (r : RT),
    rootAtGo t p above = some r → sumLen r = sumLen t - t.len + sumLenL above := by
  intro p
  induction p with
  | nil =>
    intro t above r h
    cases t with
    | mk n l cs =>
      simp only [rootAtGo, Option.some.injEq] at h
      rw [← h]
      show (0 : ℚ) + sumLenL (cs ++ above) = (l + sumLenL cs) - l + sumLenL above
      rw [sumLenL_append]
      ring
  | cons i q ih =>
    intro t above r h
    cases t with
    | mk n l cs =>
      simp only [rootAtGo] at h
      cases hget : cs.get? i with
      | none => rw [hget] at h; exact absurd h (by simp)
      | some c =>
        rw [hget] at h
        have h2 : rootAtGo c q [.mk c.name c.len (cs.eraseIdx i ++ above)] = some r := h
        rw [ih c [.mk c.name c.len (cs.eraseIdx i ++ above)] r h2]
        have e1 : sumLenL [RT.mk c.name c.len (cs.eraseIdx i ++ above)]
            = RT.len c + (sumLenL (cs.eraseIdx i) + sumLenL above) := by
          show RT.len c + sumLenL (cs.eraseIdx i ++ above) + 0 = _
          rw [sumLenL_append]
          ring
        have e3 := sumLenL_get_eraseIdx cs i c hget
        have e4 : sumLen (RT.mk n l cs) = l + sumLenL cs := rfl
        have e5 : RT.len (RT.mk n l cs) = l := rfl
        rw [e1, e4, e5]
        linarith [e3]

/-- The reoriented tree's root has length 0 and no name. -/
theorem rootAtGo_root : ∀ (p : List Nat) (t : RT) (above : List RT) (r : RT),
    rootAtGo t p above = some r → r.len = 0 ∧ r.name = none := by
  intro p
  induction p with
  | nil =>
    intro t above r h
    cases t with
    | mk n l cs =>
      simp only [rootAtGo, Option.some.injEq] at h
      rw [← h]
      exact ⟨rfl, rfl⟩
  | cons i q ih =>
    intro t above r h
    cases t with
    | mk n l cs =>
      simp only [rootAtGo] at h
      cases hget : cs.get? i with
      | none => rw [hget] at h; exact absurd h (by simp)
      | some c => rw [hget] at h; exact ih c _ r h

/-- Reorienting at a node below the root gives that node one extra child (the
flipped remainder of the tree). -/
theorem rootAtGo_child_count : ∀ (p : List Nat) (t : RT) (above : List RT)
    (r s : RT), p ≠ [] → rootAtGo t p above = some r → subAt t p = some s →
    r.children.length = s.children.length + 1 := by
  intro p
  induction p with
  | nil => intro t above r s hne; exact absurd rfl hne
  | cons i q ih =>
    intro t above r s _ h hsub
    cases t with
    | mk n l cs =>
      simp only [rootAtGo] at h
      simp only [subAt] at hsub
      cases hget : cs.get? i with
      | none => rw [hget] at h; exact absurd h (by simp)
      | some c =>
        rw [hget] at h
        rw [hget] at hsub
        have h2 : rootAtGo c q [.mk c.name c.len (cs.eraseIdx i ++ above)] = some r := h
        have hsub2 : subAt c q = some s := hsub
        cases hq : q with
        | nil =>
          subst hq
          cases c with
          | mk cn cl ccs =>
            simp only [rootAtGo, Option.some.injEq] at h2
            simp only [subAt, Option.some.injEq] at hsub2
            rw [← h2, ← hsub2]
            simp [RT.children]
        | cons j q2 =>
          subst hq
          exact ih c _ r s (by simp) h2 hsub2

/-- Inserting the zero-length new root changes neither the total length nor
the root's own length. -/
theorem insertNewRoot_sum : ∀ (p : List Nat) (t t2 : RT) (idx : Nat),
    insertNewRoot t p = some (t2, idx) → sumLen t2 = sumLen t ∧ t2.len = t.len := by
  intro p
  induction p with
  | nil => intro t t2 idx h; cases t with | mk n l cs => simp [insertNewRoot] at h
  | cons i q ih =>
    intro t t2 idx h
    cases t with
    | mk n l cs =>
      cases hq : q with
      | nil =>
        subst hq
        simp only [insertNewRoot] at h
        cases hget : cs.get? i with
        | none => rw [hget] at h; exact absurd h (by simp)
        | some c =>
          rw [hget] at h
          have h2 : (RT.mk n l (cs.eraseIdx i ++ [.mk none 0 [c]]), cs.length - 1)
              = (t2, idx) := Option.some.inj h
          have ht2 : RT.mk n l (cs.eraseIdx i ++ [.mk none 0 [c]]) = t2 :=
            congrArg Prod.fst h2
          rw [← ht2]
          refine ⟨?_, rfl⟩
          rw [sumLen_mk, sumLen_mk, sumLenL_append, sumLenL_single,
            sumLenL_get_eraseIdx cs i c hget, sumLen_mk, sumLenL_single]
          ring
      | cons j q2 =>
        subst hq
        simp only [insertNewRoot] at h
        cases hget : cs.get? i with
        | none => rw [hget] at h; exact absurd h (by simp)
        | some c =>
          rw [hget] at h
          have h3 : (match insertNewRoot c (j :: q2) with
              | none => none
              | some (c', idx2) => some (RT.mk n l (cs.set i c'), idx2))
              = some (t2, idx) := h
          cases hrec : insertNewRoot c (j :: q2) with
          | none => rw [hrec] at h3; exact absurd h3 (by simp)
          | some pr =>
            rw [hrec] at h3
            have h2 : (RT.mk n l (cs.set i pr.1), pr.2) = (t2, idx) := Option.some.inj h3
            have ht2 : RT.mk n l (cs.set i pr.1) = t2 := congrArg Prod.fst h2
            rw [← ht2]
            have hih := ih c pr.1 pr.2 (by rw [hrec])
            refine ⟨?_, rfl⟩
            rw [sumLen_mk, sumLen_mk, sumLenL_set cs i c pr.1 hget, hih.1]
            ring

/-- After inserting the new root above the node at `p`, the rewritten path
`p.dropLast ++ [idx]` addresses the new root, whose only child is that
node. -/
theorem insertNewRoot_sub : ∀ (p : List Nat) (t t2 : RT) (idx : Nat),
    insertNewRoot t p = some (t2, idx) →
    ∃ c, subAt t p = some c ∧ subAt t2 (p.dropLast ++ [idx]) = some (.mk none 0 [c]) := by
  intro p
  induction p with
  | nil => intro t t2 idx h; cases t with | mk n l cs => simp [insertNewRoot] at h
  | cons i q ih =>
    intro t t2 idx h
    cases t with
    | mk n l cs =>
      cases hq : q with
      | nil =>
        subst hq
        simp only [insertNewRoot] at h
        cases hget : cs.get? i with
        | none => rw [hget] at h; exact absurd h (by simp)
        | some c =>
          rw [hget] at h
          have h2 : (RT.mk n l (cs.eraseIdx i ++ [.mk none 0 [c]]), cs.length - 1)
              = (t2, idx) := Option.some.inj h
          have ht2 : RT.mk n l (cs.eraseIdx i ++ [.mk none 0 [c]]) = t2 :=
            congrArg Prod.fst h2
          have hidx : cs.length - 1 = idx := congrArg Prod.snd h2
          refine ⟨c, by simp only [subAt]; rw [hget], ?_⟩
          rw [← ht2, ← hidx]
          have hlen : (cs.eraseIdx i).length = cs.length - 1 :=
            length_eraseIdx_get cs i c hget
          have hg : (cs.eraseIdx i ++ [RT.mk none 0 [c]]).get? (cs.length - 1)
              = some (RT.mk none 0 [c]) := by
            rw [← hlen]
            exact getq_append_single _ _
          simp only [subAt, List.nil_append]
          rw [hg]
      | cons j q2 =>
        subst hq
        simp only [insertNewRoot] at h
        cases hget : cs.get? i with
        | none => rw [hget] at h; exact absurd h (by simp)
        | some c =>
          rw [hget] at h
          have h3 : (match insertNewRoot c (j :: q2) with
              | none => none
              | some (c', idx2) => some (RT.mk n l (cs.set i c'), idx2))
              = some (t2, idx) := h
          cases hrec : insertNewRoot c (j :: q2) with
          | none => rw [hrec] at h3; exact absurd h3 (by simp)
          | some pr =>
            rw [hrec] at h3
            have h2 : (RT.mk n l (cs.set i pr.1), pr.2) = (t2, idx) := Option.some.inj h3
            have ht2 : RT.mk n l (cs.set i pr.1) = t2 := congrArg Prod.fst h2
            have hidx : pr.2 = idx := congrArg Prod.snd h2
            obtain ⟨c0, hc0, hc0'⟩ := ih c pr.1 pr.2 (by rw [hrec])
            refine ⟨c0, ?_, ?_⟩
            · show (match cs.get? i with
                | none => none
                | some c2 => subAt c2 (j :: q2)) = some c0
              rw [hget]
              exact hc0
            · rw [← ht2, ← hidx]
              have hg := getq_set_self cs i c pr.1 hget
              show (match (cs.set i pr.1).get? i with
                | none => none
                | some c2 => subAt c2 ((j :: q2).dropLast ++ [pr.2])) = _
              rw [hg]
              exact hc0'

/-- Updating at a path with a subtree-sum-preserving function preserves the
whole tree's sum. -/
theorem updAt_sum : ∀ (p : List Nat) (t : RT) (f : RT → RT) (r : RT),
    updAt t p f = some r →
    (∀ s, subAt t p = some s → sumLen (f s) = sumLen s) →
    sumLen r = sumLen t := by
  intro p
  induction p with
  | nil =>
    intro t f r h hf
    cases t with
    | mk n l cs =>
      simp only [updAt, Option.some.injEq] at h
      rw [← h]
      exact hf _ rfl
  | cons i q ih =>
    intro t f r h hf
    cases t with
    | mk n l cs =>
      simp only [updAt] at h
      cases hget : cs.get? i with
      | none => rw [hget] at h; exact absurd h (by simp)
      | some c =>
        rw [hget] at h
        have h3 : (match updAt c q f with
            | none => none
            | some c' => some (RT.mk n l (cs.set i c'))) = some r := h
        cases hrec : updAt c q f with
        | none => rw [hrec] at h3; exact absurd h3 (by simp)
        | some c' =>
          rw [hrec] at h3
          simp only [Option.some.injEq] at h3
          rw [← h3]
          have hsum := ih c f c' hrec (fun s hs => hf s (by
            show (match cs.get? i with
              | none => none
              | some c2 => subAt c2 q) = some s
            rw [hget]
            exact hs))
          rw [sumLen_mk, sumLen_mk, sumLenL_set cs i c c' hget, hsum]
          ring

/-- Updating strictly below the root leaves the root's own length intact. -/
theorem updAt_root_len : ∀ (i : Nat) (q : List Nat) (t : RT) (f : RT → RT) (r : RT),
    updAt t (i :: q) f = some r → r.len = t.len := by
  intro i q t f r h
  cases t with
  | mk n l cs =>
    simp only [updAt] at h
    cases hget : cs.get? i with
    | none => rw [hget] at h; exact absurd h (by simp)
    | some c =>
      rw [hget] at h
      have h3 : (match updAt c q f with
          | none => none
          | some c' => some (RT.mk n l (cs.set i c'))) = some r := h
      cases hrec : updAt c q f with
      | none => rw [hrec] at h3; exact absurd h3 (by simp)
      | some c' =>
        rw [hrec] at h3
        simp only [Option.some.injEq] at h3
        rw [← h3]
        rfl

/-- Sum of a node expressed through its projections. -/
theorem sumLen_eq (t : RT) : sumLen t = t.len + sumLenL t.children := by
  cases t
  rfl

/-- Renaming the root's first child changes no length. -/
theorem renameFirstChild_sum (t t1 : RT) (h : renameFirstChild t = .ok t1) :
    sumLen t1 = sumLen t ∧ t1.len = t.len := by
  cases t with
  | mk n l cs =>
    cases cs with
    | nil => exact absurd h (by simp [renameFirstChild])
    | cons c0 cs' =>
      cases c0 with
      | mk c0n c0l c0cs =>
        simp only [renameFirstChild, Except.ok.injEq] at h
        rw [← h]
        exact ⟨rfl, rfl⟩

/-- Collapsing at a nonempty path preserves the total length and the root's
own length. -/
theorem collapseAt_sum (r : RT) (pn : List Nat) (r' : RT) (hpn : pn ≠ [])
    (h : collapseAt r pn = .ok r') :
    sumLen r' = sumLen r ∧ r'.len = r.len := by
  unfold collapseAt at h
  cases hsub : subAt r pn with
  | none => rw [hsub] at h; exact absurd h (by simp)
  | some nd =>
    rw [hsub] at h
    cases nd with
    | mk nm nl ncs =>
      cases ncs with
      | nil => exact absurd h (by simp)
      | cons ch rest =>
        cases rest with
        | cons c2 r2 => exact absurd h (by simp)
        | nil =>
          cases ch with
          | mk nm2 cl gcs =>
            have h3 : (if gcs.length = 2 then
                match updAt r pn (fun _ => RT.mk none (nl + cl) gcs) with
                | none => Except.error TErr.badPath
                | some r2 => Except.ok r2
              else Except.error TErr.numGrandchildren) = Except.ok r' := h
            by_cases hg2 : gcs.length = 2
            · rw [if_pos hg2] at h3
              cases hupd : updAt r pn (fun _ => RT.mk none (nl + cl) gcs) with
              | none => rw [hupd] at h3; exact absurd h3 (by simp)
              | some r2 =>
                rw [hupd] at h3
                simp only [Except.ok.injEq] at h3
                subst h3
                constructor
                · refine updAt_sum pn r _ r2 hupd ?_
                  intro s hs
                  rw [hsub] at hs
                  injection hs with hs
                  rw [← hs, sumLen_mk, sumLen_mk, sumLenL_single, sumLen_mk]
                  ring
                · cases pn with
                  | nil => exact absurd rfl hpn
                  | cons b pn2 => exact updAt_root_len b pn2 r _ r2 hupd
            · rw [if_neg hg2] at h3
              exact absurd h3 (by simp)

/-- Collapsing the dummy node preserves the total length and, when the root
has two children, the root's own length. -/
theorem collapseDummy_sum (r : RT) (q : List Nat) (r' : RT)
    (hroot : r.children.length = 2)
    (h : collapseDummy r q = .ok r') :
    sumLen r' = sumLen r ∧ r'.len = r.len := by
  unfold collapseDummy at h
  cases q with
  | nil =>
    cases hoc : subAt r [] with
    | none => rw [hoc] at h; exact absurd h (by simp)
    | some oc => rw [hoc] at h; exact absurd h (by simp)
  | cons a q1 =>
    cases hoc : subAt r (a :: q1) with
    | none => rw [hoc] at h; exact absurd h (by simp)
    | some oc =>
      rw [hoc] at h
      have h4 : (match subAt r ((a :: q1).dropLast) with
          | none => Except.error TErr.badPath
          | some par =>
            match (if oc.children.length = 1 then [a :: q1] else [])
                ++ (if par.children.length = 1 then [(a :: q1).dropLast] else []) with
            | [pn] => collapseAt r pn
            | _ => Except.error TErr.numOneChild) = Except.ok r' := h
      cases hpar : subAt r ((a :: q1).dropLast) with
      | none => rw [hpar] at h4; exact absurd h4 (by simp)
      | some par =>
        rw [hpar] at h4
        have h5 : (match (if oc.children.length = 1 then [a :: q1] else [])
            ++ (if par.children.length = 1 then [(a :: q1).dropLast] else []) with
          | [pn] => collapseAt r pn
          | _ => Except.error TErr.numOneChild) = Except.ok r' := h4
        by_cases h1 : oc.children.length = 1 <;> by_cases h2 : par.children.length = 1
        · rw [if_pos h1, if_pos h2] at h5
          exact absurd h5 (by simp)
        · rw [if_pos h1, if_neg h2] at h5
          simp only [List.append_nil] at h5
          exact collapseAt_sum r (a :: q1) r' (by simp) h5
        · rw [if_neg h1, if_pos h2] at h5
          simp only [List.nil_append] at h5
          have hqd : (a :: q1).dropLast ≠ [] := by
            intro hd
            rw [hd] at hpar
            cases r with
            | mk rn rl rcs =>
              simp only [subAt, Option.some.injEq] at hpar
              rw [← hpar] at h2
              simp only [RT.children] at h2 hroot
              omega
          exact collapseAt_sum r ((a :: q1).dropLast) r' hqd h5
        · rw [if_neg h1, if_neg h2] at h5
          exact absurd h5 (by simp)

/-- The branch-preserving reroot keeps the sum of all branch lengths exactly:
whenever `_reroot_workaround` returns a tree, the sum of the result's branch
lengths (every node's length except the root's) equals the input's, for any
tree with at least 3 tips. -/
theorem rerootWorkaround_branch_length_invariant (t : RT) (p : List Nat) (t' : RT)
    (_htips : 3 ≤ (tipNamesNoSelf t).length)
    (h : rerootWorkaround t p = .ok t') :
    branchSum t' = branchSum t := by
  match p with
  | [] => exact absurd h (by simp [rerootWorkaround])
  | [i] =>
    cases t with
    | mk n l cs =>
      simp only [rerootWorkaround] at h
      cases hget : cs.get? i with
      | none => rw [hget] at h; exact absurd h (by simp)
      | some node =>
        rw [hget] at h
        have h3 : (match cs.eraseIdx i with
            | [s] => Except.ok (RT.mk none 0
                [.mk node.name 0 node.children, .mk s.name (s.len + node.len) s.children])
            | _ => Except.error TErr.numSisters) = Except.ok t' := h
        cases herase : cs.eraseIdx i with
        | nil => rw [herase] at h3; exact absurd h3 (by simp)
        | cons s rest =>
          cases rest with
          | cons s2 rest2 => rw [herase] at h3; exact absurd h3 (by simp)
          | nil =>
            rw [herase] at h3
            simp only [Except.ok.injEq] at h3
            rw [← h3]
            unfold branchSum
            have e1 := sumLenL_get_eraseIdx cs i node hget
            rw [herase, sumLenL_single] at e1
            rw [sumLen_mk, sumLen_mk]
            show (0 + (sumLenL [RT.mk node.name 0 node.children,
                RT.mk s.name (s.len + node.len) s.children])) - RT.len (RT.mk none 0 _)
              = (l + sumLenL cs) - RT.len (RT.mk n l cs)
            rw [sumLenL_cons, sumLenL_cons, sumLenL_nil, sumLen_mk, sumLen_mk]
            have e2 := sumLen_eq node
            have e3 := sumLen_eq s
            show (0 + ((0 + sumLenL node.children) + (((s.len + node.len) + sumLenL s.children) + 0))) - 0
          = (l + sumLenL cs) - l
            rw [e1]
            linarith [e2, e3]
  | i :: j :: q =>
    simp only [rerootWorkaround] at h
    cases hren : renameFirstChild t with
    | error e => rw [hren] at h; exact absurd h (by simp)
    | ok t1 =>
      rw [hren] at h
      have h4 : (match insertNewRoot t1 (i :: j :: q) with
          | none => Except.error TErr.badPath
          | some (t2, idx) =>
            match rootAtGo t2 ((i :: j :: q).dropLast ++ [idx]) [] with
            | none => Except.error TErr.badPath
            | some r =>
              match findPathT (some "ochild") r with
              | none => Except.error TErr.missingNode
              | some q2 => collapseDummy r q2) = Except.ok t' := h
      cases hins : insertNewRoot t1 (i :: j :: q) with
      | none => rw [hins] at h4; exact absurd h4 (by simp)
      | some pr =>
        rw [hins] at h4
        have h5 : (match rootAtGo pr.1 ((i :: j :: q).dropLast ++ [pr.2]) [] with
            | none => Except.error TErr.badPath
            | some r =>
              match findPathT (some "ochild") r with
              | none => Except.error TErr.missingNode
              | some q2 => collapseDummy r q2) = Except.ok t' := h4
        cases hroot : rootAtGo pr.1 ((i :: j :: q).dropLast ++ [pr.2]) [] with
        | none => rw [hroot] at h5; exact absurd h5 (by simp)
        | some r =>
          rw [hroot] at h5
          have h6 : (match findPathT (some "ochild") r with
              | none => Except.error TErr.missingNode
              | some q2 => collapseDummy r q2) = Except.ok t' := h5
          cases hfind : findPathT (some "ochild") r with
          | none => rw [hfind] at h6; exact absurd h6 (by simp)
          | some q2 =>
            rw [hfind] at h6
            have h4 : collapseDummy r q2 = Except.ok t' := h6
            have hrs := renameFirstChild_sum t t1 hren
            have his := insertNewRoot_sum (i :: j :: q) t1 pr.1 pr.2 (by rw [hins])
            obtain ⟨c, hcsub, hcsub2⟩ :=
              insertNewRoot_sub (i :: j :: q) t1 pr.1 pr.2 (by rw [hins])
            have hsum := rootAtGo_sum ((i :: j :: q).dropLast ++ [pr.2]) pr.1 [] r hroot
            have hrl := rootAtGo_root ((i :: j :: q).dropLast ++ [pr.2]) pr.1 [] r hroot
            have hcount := rootAtGo_child_count ((i :: j :: q).dropLast ++ [pr.2]) pr.1 []
              r (.mk none 0 [c]) (by simp) hroot hcsub2
            have hroot2 : r.children.length = 2 := by
              rw [hcount]
              rfl
            have hcol := collapseDummy_sum r q2 t' hroot2 h4
            unfold branchSum
            rw [hcol.2, hrl.1, hcol.1, hsum, sumLenL_nil]
            rw [his.1, his.2, hrs.1, hrs.2]
            ring

/-- Closed instance of the branch-length invariance: rerooting the concrete
tree (X:3 (A:1, B:2), Y:6 (C:4, D:5)) at the tip A (path [0,0], the general
case of the primitive) keeps the total branch length 21. -/
theorem rerootWorkaround_branch_length_invariant_inst :
    branchSum (RT.mk none 0 [.mk (some "A") 1 [],
      .mk none 0 [.mk (some "B") 2 [],
        .mk none 9 [.mk (some "C") 4 [], .mk (some "D") 5 []]]])
      = branchSum (RT.mk none 0
        [.mk (some "X") 3 [.mk (some "A") 1 [], .mk (some "B") 2 []],
         .mk (some "Y") 6 [.mk (some "C") 4 [], .mk (some "D") 5 []]]) :=
  rerootWorkaround_branch_length_invariant
    (RT.mk none 0 [.mk (some "X") 3 [.mk (some "A") 1 [], .mk (some "B") 2 []],
       .mk (some "Y") 6 [.mk (some "C") 4 [], .mk (some "D") 5 []]])
    [0, 0]
    (RT.mk none 0 [.mk (some "A") 1 [],
      .mk none 0 [.mk (some "B") 2 [],
        .mk none 9 [.mk (some "C") 4 [], .mk (some "D") 5 []]]])
    (by norm_num +decide [tipNamesNoSelf, tipNamesL, tipNames, RT.children])
    (by norm_num +decide [rerootWorkaround, renameFirstChild, insertNewRoot,
      rootAtGo, findPathT, findPathL, collapseDummy, collapseAt, subAt, updAt,
      RT.name, RT.len, RT.children, List.eraseIdx, List.dropLast])

/-- The only exception an LCA query itself raises is the missing-name one. -/
theorem lcaResult_error_shape (t : RT) (names : List (Option String)) (e : TErr)
    (h : lcaResult t names = .error e) : e = .missingNode := by
  unfold lcaResult at h
  cases hm : names.mapM (fun n => findPathT n t) with
  | none =>
    rw [hm] at h
    injection h with h
    exact h.symm
  | some l =>
    rw [hm] at h
    cases l <;> exact absurd h (by simp)

/-- The collapse step never raises a paraphyletic error. -/
theorem collapseAt_not_para (r : RT) (pn : List Nat) (e : TErr)
    (h : collapseAt r pn = .error e) : e ≠ .paraCase1 ∧ e ≠ .paraCase2 := by
  unfold collapseAt at h
  repeat' split at h
  all_goals first
    | (injection h with h; subst h; decide)
    | (injection h)

/-- The dummy removal never raises a paraphyletic error. -/
theorem collapseDummy_not_para (r : RT) (q : List Nat) (e : TErr)
    (h : collapseDummy r q = .error e) : e ≠ .paraCase1 ∧ e ≠ .paraCase2 := by
  unfold collapseDummy at h
  repeat' split at h
  all_goals first
    | (injection h with h; subst h; decide)
    | (injection h)
    | exact collapseAt_not_para _ _ _ h

/-- The first-child renaming only raises IndexError. -/
theorem renameFirstChild_error_shape (t : RT) (e : TErr)
    (h : renameFirstChild t = .error e) : e = .indexError := by
  cases t with
  | mk n l cs =>
    cases cs with
    | nil =>
      injection h with h
      exact h.symm
    | cons c0 cs' =>
      cases c0 with
      | mk c0n c0l c0cs => exact absurd h (by simp [renameFirstChild])

/-- The reroot primitive never raises a paraphyletic error. -/
theorem rerootWorkaround_not_para (t : RT) (p : List Nat) (e : TErr)
    (h : rerootWorkaround t p = .error e) : e ≠ .paraCase1 ∧ e ≠ .paraCase2 := by
  match p with
  | [] =>
    simp only [rerootWorkaround] at h
    injection h with h
    subst h
    decide
  | [i] =>
    simp only [rerootWorkaround] at h
    repeat' split at h
    all_goals first
      | (injection h with h; subst h; decide)
      | (injection h)
  | i :: j :: q =>
    simp only [rerootWorkaround] at h
    cases hren : renameFirstChild t with
    | error e2 =>
      rw [hren] at h
      injection h with h
      have h9 := renameFirstChild_error_shape t e2 hren
      subst h
      subst h9
      decide
    | ok t1 =>
      rw [hren] at h
      have h4 : (match insertNewRoot t1 (i :: j :: q) with
          | none => Except.error TErr.badPath
          | some (t2, idx) =>
            match rootAtGo t2 ((i :: j :: q).dropLast ++ [idx]) [] with
            | none => Except.error TErr.badPath
            | some r =>
              match findPathT (some "ochild") r with
              | none => Except.error TErr.missingNode
              | some q2 => collapseDummy r q2) = Except.error e := h
      repeat' split at h4
      all_goals first
        | (injection h4 with h4; subst h4; decide)
        | (injection h4)
        | exact collapseDummy_not_para _ _ _ h4

/-- After the provisional reroot, case-2 paraphyly is raised exactly when the
recomputed LCA of the other side's names is the rerooted tree's root. -/
theorem afterFirstReroot_para2_iff (t2 : RT) (other : List (Option String)) :
    afterFirstReroot t2 other = .error .paraCase2 ↔
      lcaResult t2 other = .ok (some []) := by
  cases hl : lcaResult t2 other with
  | error e =>
    have he := lcaResult_error_shape t2 other e hl
    subst he
    simp +decide [afterFirstReroot, hl]
  | ok lopt =>
    cases lopt with
    | none => simp +decide [afterFirstReroot, hl]
    | some q =>
      by_cases hq : q = []
      · subst hq
        simp +decide [afterFirstReroot, hl]
      · cases hf : farGo t2 q none (-1) with
        | none => simp +decide [afterFirstReroot, hl, hq, hf]
        | some fp =>
          simp only [afterFirstReroot, hl, if_neg hq, hf]
          constructor
          · intro h
            exact absurd rfl (rerootWorkaround_not_para t2 fp .paraCase2 h).2
          · intro h
            injection h with h
            injection h with h
            exact absurd h hq

/-- After the provisional reroot, case-1 paraphyly can no longer arise. -/
theorem afterFirstReroot_not_para1 (t2 : RT) (other : List (Option String)) :
    afterFirstReroot t2 other ≠ .error .paraCase1 := by
  cases hl : lcaResult t2 other with
  | error e =>
    have he := lcaResult_error_shape t2 other e hl
    subst he
    simp +decide [afterFirstReroot, hl]
  | ok lopt =>
    cases lopt with
    | none => simp +decide [afterFirstReroot, hl]
    | some q =>
      by_cases hq : q = []
      · subst hq
        simp +decide [afterFirstReroot, hl]
      · cases hf : farGo t2 q none (-1) with
        | none => simp +decide [afterFirstReroot, hl, hq, hf]
        | some fp =>
          simp only [afterFirstReroot, hl, if_neg hq, hf]
          intro h
          exact absurd rfl (rerootWorkaround_not_para t2 fp .paraCase1 h).1

/-- A dispatch side never raises case-1 paraphyly. -/
theorem dispatchSide_not_para1 (new : RT) (p : Option (List Nat))
    (others : List (Option String)) :
    dispatchSide new p others ≠ .error .paraCase1 := by
  cases p with
  | none =>
    intro h
    have h2 : (Except.error TErr.attributeError : Except TErr RT) =
        .error .paraCase1 := h
    injection h2 with h2
    exact absurd h2 (by decide)
  | some rp =>
    cases hw : rerootWorkaround new rp with
    | error e =>
      intro h
      have h2 : (match rerootWorkaround new rp with
          | .error e => Except.error e
          | .ok t2 => afterFirstReroot t2 others) =
          Except.error TErr.paraCase1 := h
      rw [hw] at h2
      injection h2 with h2
      exact absurd h2 (rerootWorkaround_not_para new rp e hw).1
    | ok t2 =>
      intro h
      have h2 : (match rerootWorkaround new rp with
          | .error e => Except.error e
          | .ok t2 => afterFirstReroot t2 others) =
          Except.error TErr.paraCase1 := h
      rw [hw] at h2
      exact absurd h2 (afterFirstReroot_not_para1 t2 others)

/-- A dispatch side raises case-2 paraphyly exactly when its LCA is a real
path, the provisional reroot there succeeds, and the recomputed LCA of the
other side's names is the rerooted tree's root. -/
theorem dispatchSide_para2_iff (new : RT) (p : Option (List Nat))
    (others : List (Option String)) :
    dispatchSide new p others = .error .paraCase2 ↔
      ∃ rp t2, p = some rp ∧ rerootWorkaround new rp = .ok t2 ∧
        lcaResult t2 others = .ok (some []) := by
  cases p with
  | none =>
    constructor
    · intro h
      have h2 : (Except.error TErr.attributeError : Except TErr RT) =
          .error .paraCase2 := h
      injection h2 with h2
      exact absurd h2 (by decide)
    · rintro ⟨rp, t2, hrp, -, -⟩
      exact absurd hrp (by simp)
  | some rp =>
    cases hw : rerootWorkaround new rp with
    | error e =>
      constructor
      · intro h
        have h2 : (match rerootWorkaround new rp with
            | .error e => Except.error e
            | .ok t2 => afterFirstReroot t2 others) =
            Except.error TErr.paraCase2 := h
        rw [hw] at h2
        injection h2 with h2
        exact absurd h2 (rerootWorkaround_not_para new rp e hw).2
      · rintro ⟨rp2, t2, hrp2, hw2, -⟩
        injection hrp2 with hrp2
        subst hrp2
        rw [hw] at hw2
        exact absurd hw2 (by simp)
    | ok t2 =>
      have h2 : dispatchSide new (some rp) others = afterFirstReroot t2 others := by
        have h3 : dispatchSide new (some rp) others =
            (match rerootWorkaround new rp with
            | .error e => Except.error e
            | .ok t2 => afterFirstReroot t2 others) := rfl
        rw [h3, hw]
      rw [h2, afterFirstReroot_para2_iff]
      constructor
      · intro h
        exact ⟨rp, t2, rfl, hw, h⟩
      · rintro ⟨rp2, t3, hrp2, hw2, hlca⟩
        injection hrp2 with hrp2
        subst hrp2
        rw [hw] at hw2
        injection hw2 with hw2
        subst hw2
        exact hlca

/-- Evaluation of the rerooting driver once the binary check and the two LCA
queries are known. -/
theorem rerootTreeByOldRoot_eval (old new : RT) (hb : old.children.length = 2)
    (lOpt rOpt : Option (List Nat))
    (hL : lcaResult new (leftSharedNames old new) = .ok lOpt)
    (hR : lcaResult new (rightSharedNames old new) = .ok rOpt) :
    rerootTreeByOldRoot old new =
      (if lOpt = some [] then
        (if rOpt = some [] then Except.error TErr.paraCase1
         else dispatchSide new rOpt (leftSharedNames old new))
      else dispatchSide new lOpt (rightSharedNames old new)) := by
  unfold rerootTreeByOldRoot
  rw [if_neg (by simp [hb]), hL, hR]

/-- The typed paraphyletic error arises in exactly the two claimed
situations: case #1 exactly when both shared-side LCAs are the target tree's
root, and case #2 exactly when, after the provisional reroot at the non-root
LCA succeeds, the recomputed LCA of the other side's names is the rerooted
tree's root (has no parent); no other input condition produces either
error. -/
theorem rerootTreeByOldRoot_paraphyletic_iff (old new : RT) :
    (rerootTreeByOldRoot old new = .error .paraCase1 ↔
      (old.children.length = 2 ∧
       lcaResult new (leftSharedNames old new) = .ok (some []) ∧
       lcaResult new (rightSharedNames old new) = .ok (some []))) ∧
    (rerootTreeByOldRoot old new = .error .paraCase2 ↔
      (old.children.length = 2 ∧
       ∃ lOpt rOpt,
         lcaResult new (leftSharedNames old new) = .ok lOpt ∧
         lcaResult new (rightSharedNames old new) = .ok rOpt ∧
         ((lOpt = some [] ∧ rOpt ≠ some [] ∧
             ∃ rp t2, rOpt = some rp ∧ rerootWorkaround new rp = .ok t2 ∧
               lcaResult t2 (leftSharedNames old new) = .ok (some [])) ∨
          (lOpt ≠ some [] ∧
             ∃ lp t2, lOpt = some lp ∧ rerootWorkaround new lp = .ok t2 ∧
               lcaResult t2 (rightSharedNames old new) = .ok (some []))))) := by
  by_cases hb : old.children.length = 2
  case neg =>
    have hbe : rerootTreeByOldRoot old new = .error .expectedBinary := by
      unfold rerootTreeByOldRoot
      rw [if_pos hb]
    rw [hbe]
    constructor
    · constructor
      · intro h; exact absurd h (by decide)
      · intro h; exact absurd h.1 hb
    · constructor
      · intro h; exact absurd h (by decide)
      · intro h; exact absurd h.1 hb
  case pos =>
    cases hL : lcaResult new (leftSharedNames old new) with
    | error e =>
      have he := lcaResult_error_shape _ _ _ hL
      subst he
      have hbe : rerootTreeByOldRoot old new = .error .missingNode := by
        unfold rerootTreeByOldRoot
        rw [if_neg (by simp [hb]), hL]
      rw [hbe]
      constructor
      · constructor
        · intro h; exact absurd h (by decide)
        · intro h
          exact Except.noConfusion h.2.1
      · constructor
        · intro h; exact absurd h (by decide)
        · intro h
          obtain ⟨_, lOpt, rOpt, hL2, _, _⟩ := h
          exact Except.noConfusion hL2
    | ok lOpt =>
      cases hR : lcaResult new (rightSharedNames old new) with
      | error e =>
        have he := lcaResult_error_shape _ _ _ hR
        subst he
        have hbe : rerootTreeByOldRoot old new = .error .missingNode := by
          unfold rerootTreeByOldRoot
          rw [if_neg (by simp [hb]), hL, hR]
        rw [hbe]
        constructor
        · constructor
          · intro h; exact absurd h (by decide)
          · intro h
            exact Except.noConfusion h.2.2
        · constructor
          · intro h; exact absurd h (by decide)
          · intro h
            obtain ⟨_, lOpt2, rOpt2, _, hR2, _⟩ := h
            exact Except.noConfusion hR2
      | ok rOpt =>
        have hev := rerootTreeByOldRoot_eval old new hb lOpt rOpt hL hR
        constructor
        · -- case 1
          constructor
          · intro h
            rw [hev] at h
            by_cases hl0 : lOpt = some []
            · rw [if_pos hl0] at h
              by_cases hr0 : rOpt = some []
              · exact ⟨hb, by rw [hl0], by rw [hr0]⟩
              · rw [if_neg hr0] at h
                exact absurd h (dispatchSide_not_para1 new rOpt _)
            · rw [if_neg hl0] at h
              exact absurd h (dispatchSide_not_para1 new lOpt _)
          · intro h
            obtain ⟨_, h1, h2⟩ := h
            injection h1 with h1
            injection h2 with h2
            rw [hev, if_pos h1, if_pos h2]
        · -- case 2
          constructor
          · intro h
            rw [hev] at h
            by_cases hl0 : lOpt = some []
            · rw [if_pos hl0] at h
              by_cases hr0 : rOpt = some []
              · rw [if_pos hr0] at h
                exact absurd h (by decide)
              · rw [if_neg hr0] at h
                obtain ⟨rp, t2, hrp, hw, hlca⟩ :=
                  (dispatchSide_para2_iff new rOpt _).mp h
                exact ⟨hb, lOpt, rOpt, rfl, rfl, Or.inl
                  ⟨hl0, hr0, rp, t2, hrp, hw, hlca⟩⟩
            · rw [if_neg hl0] at h
              obtain ⟨lp, t2, hlp, hw, hlca⟩ :=
                (dispatchSide_para2_iff new lOpt _).mp h
              exact ⟨hb, lOpt, rOpt, rfl, rfl, Or.inr
                ⟨hl0, lp, t2, hlp, hw, hlca⟩⟩
          · intro h
            obtain ⟨_, lOpt2, rOpt2, hL2, hR2, hbr⟩ := h
            injection hL2 with hL2
            injection hR2 with hR2
            subst hL2
            subst hR2
            rw [hev]
            rcases hbr with ⟨hl0, hr0, rp, t2, hrp, hw, hlca⟩ | ⟨hl0, lp, t2, hlp, hw, hlca⟩
            · rw [if_pos hl0, if_neg hr0]
              exact (dispatchSide_para2_iff new _ _).mpr ⟨rp, t2, hrp, hw, hlca⟩
            · rw [if_neg hl0]
              exact (dispatchSide_para2_iff new _ _).mpr ⟨lp, t2, hlp, hw, hlca⟩

end GraftM
